import Mathlib

/-!
Verification development for the flat-structuring-element min/max filter engine
of gwyddion, src/libprocess/filters.c (run-length-encoded kernels, the
length-requirement planner, the row precompute engine, asymmetric border
extension, the rolling-buffer sweep executor and the morphological facade).

Data values are modelled as rationals (the C code stores doubles but the engine
only compares and, for range/normalization, subtracts and divides them).
Rasters are modelled as total functions from coordinates; all source loops are
translated to structural recursions, with a fuel argument standing for the
strictly decreasing loop/recursion measure of the C code.  Buffers that the C
code allocates without initialising are modelled with `Option`: `none` is the
content of memory that was never written.
-/

/-- Mirrors the ternary `(*a > *b) ? *b : *a` used by the `min` compose and
execute loops. -/
def cMin (a b : ℚ) : ℚ := if b < a then b else a

/-- Mirrors the ternary `(*a < *b) ? *b : *a` used by the `max` compose and
execute loops. -/
def cMax (a b : ℚ) : ℚ := if a < b then b else a

/-- Extremum of the window `x i, x (i+1), ..., x (i+n)` (n+1 values), folded
with the comparator.  This is the specification-side value the precomputed
buffers must match. -/
def windowFold (cmb : ℚ → ℚ → ℚ) (x : ℕ → ℚ) : ℕ → ℕ → ℚ
  | 0, i => x i
  | n + 1, i => cmb (x i) (windowFold cmb x n (i + 1))

/-- One entry of the planner tables, mirroring `MinMaxPrecomputedLen`
(fields `needed`, `sublen1`, `sublen2`, `even_even`, `even_odd`). -/
structure PlanEntry where
  needed : Bool
  sublen1 : ℕ
  sublen2 : ℕ
  even_even : Bool
  even_odd : Bool

/-- The two planner tables of `MinMaxPrecomputedReq` (`each` and `even`),
indexed by block length. -/
structure MMReq where
  each : ℕ → PlanEntry
  even : ℕ → PlanEntry

/-- Zero-initialised entry: `g_new0` memory. -/
def emptyEntry : PlanEntry := ⟨false, 0, 0, false, false⟩

/-- Fresh tables: all entries zero-initialised (`g_new0`). -/
def emptyReq : MMReq := ⟨fun _ => emptyEntry, fun _ => emptyEntry⟩

/-- Write one entry of the `each` table. -/
def updEach (r : MMReq) (L : ℕ) (e : PlanEntry) : MMReq :=
  ⟨fun n => if n = L then e else r.each n, r.even⟩

/-- Write one entry of the `even` table. -/
def updEven (r : MMReq) (L : ℕ) (e : PlanEntry) : MMReq :=
  ⟨r.each, fun n => if n = L then e else r.even n⟩

/-- Mirrors `fill_req_subs(precomp, sublen1, sublen2, even_odd, even_even)`,
applied together with the `needed := TRUE` of `maybe_set_req`; the argument
order of the two flags is the C order. -/
def mkEntry (s1 s2 : ℕ) (eo ee : Bool) : PlanEntry := ⟨true, s1, s2, ee, eo⟩

/-- The split-search loop of the even-blocklen branch of
`find_required_lengths_recursive`: scan `i = 1, ...` while `i < (blen+1)/2`,
returning the first `i` with both `each[i]` and `each[blen-i]` already needed.
The fuel argument counts the remaining loop iterations. -/
def scanEvenSplit (r : MMReq) (blen : ℕ) : ℕ → ℕ → Option (ℕ × ℕ)
  | _, 0 => none
  | i, k + 1 =>
    if i < (blen + 1) / 2 then
      if (r.each i).needed && (r.each (blen - i)).needed then some (i, blen - i)
      else scanEvenSplit r blen (i + 1) k
    else none

/-- Result of the odd-blocklen split-search loop: either a found pair of
sub-lengths (with the even/odd flag) or fall-through carrying `any` (the last
scanned `i` with `each[i]` needed, `0` when there was none). -/
inductive OddSplit where
  | found : ℕ → ℕ → Bool → OddSplit
  | fb : ℕ → OddSplit

/-- The split-search loop of the odd-blocklen branch of
`find_required_lengths_recursive`, with its three reuse patterns tried in
source order at each `i`, and the `any` accumulator updated on fall-through. -/
def scanOddSplit (r : MMReq) (blen : ℕ) : ℕ → ℕ → ℕ → OddSplit
  | _, a, 0 => .fb a
  | i, a, k + 1 =>
    if i < (blen + 1) / 2 then
      if (r.each i).needed && (r.each (blen - i)).needed then .found i (blen - i) false
      else if (r.even i).needed && (r.each (blen - i)).needed then .found i (blen - i) true
      else if (r.each i).needed && (r.even (blen - i)).needed then .found (blen - i) i true
      else scanOddSplit r blen (i + 1) (if (r.each i).needed then i else a) k
    else .fb a

/-- The even-blocklen branch of the `each` table continued after the split
search: reuse a found pair, otherwise record `Each(m)+Each(m)` and recurse
(`step` is the planner recursion at the remaining fuel). -/
def evenSplitCase (step : MMReq → ℕ → Bool → MMReq) (r : MMReq) (blen : ℕ) :
    Option (ℕ × ℕ) → MMReq
  | some (i, j) => updEach r blen (mkEntry i j false false)
  | none => step (updEach r blen (mkEntry (blen / 2) (blen / 2) false false)) (blen / 2) false

/-- The odd-blocklen branch of the `each` table continued after the split
search: reuse a found pair; else split off an existing `any`; else the
`4m+1`/`4m+3` even/odd rules, recursing on both sub-lengths in source
order. -/
def oddSplitCase (step : MMReq → ℕ → Bool → MMReq) (r : MMReq) (blen : ℕ) : OddSplit → MMReq
  | .found s1 s2 eo => updEach r blen (mkEntry s1 s2 eo false)
  | .fb a =>
    if a = 0 then
      if blen % 4 = 1 then
        step (step (updEach r blen (mkEntry (blen / 2) (blen / 2 + 1) true false))
          (blen / 2) true) (blen / 2 + 1) false
      else
        step (step (updEach r blen (mkEntry (blen / 2 + 1) (blen / 2) true false))
          (blen / 2 + 1) true) (blen / 2) false
    else step (updEach r blen (mkEntry a (blen - a) false false)) (blen - a) false

/-- `find_required_lengths_recursive(req, blocklen, is_even)`.  The recursion
of the C code strictly decreases `blocklen`; the fuel argument makes that
structural (callers pass fuel at least `blocklen`).  Entries already `needed`
are returned unchanged (`maybe_set_req`); otherwise the entry is recorded and
the construction recurses on the sub-lengths, in source order. -/
def findReq : ℕ → MMReq → ℕ → Bool → MMReq
  | 0, r, _, _ => r
  | fuel + 1, r, blen, isEv =>
    if isEv then
      if (r.even blen).needed then r
      else if blen = 2 then
        findReq fuel (updEven r 2 (mkEntry 1 1 false false)) 1 false
      else if blen % 4 = 0 then
        findReq fuel (updEven r blen (mkEntry (blen / 2) (blen / 2) false true)) (blen / 2) true
      else if blen % 4 = 2 then
        findReq fuel
          (findReq fuel (updEven r blen (mkEntry (blen / 2 - 1) (blen / 2 + 1) false true))
            (blen / 2 - 1) true)
          (blen / 2 + 1) true
      else r
    else
      if (r.each blen).needed then r
      else if blen = 1 then updEach r 1 ⟨true, 0, 0, false, false⟩
      else if blen % 2 = 0 then
        evenSplitCase (findReq fuel) r blen (scanEvenSplit r blen 1 blen)
      else
        oddSplitCase (findReq fuel) r blen (scanOddSplit r blen 1 0 blen)

/-- Insertion into a sorted list (ascending), for the `qsort` of
`find_required_lengths_for_set`. -/
def insSorted (a : ℕ) : List ℕ → List ℕ
  | [] => [a]
  | b :: t => if a ≤ b then a :: b :: t else b :: insSorted a t

/-- Ascending sort of the requested block lengths. -/
def sortLens (l : List ℕ) : List ℕ := l.foldr insSorted []

/-- Removal of adjacent duplicates from the sorted length list, mirroring the
uniquifying loop of `find_required_lengths_for_set`. -/
def dedupAdj : List ℕ → List ℕ
  | [] => []
  | [a] => [a]
  | a :: b :: t => if a = b then dedupAdj (b :: t) else a :: dedupAdj (b :: t)

/-- `find_required_lengths_for_set`: sort, uniquify, then mark every requested
length in the `each` table in ascending order. -/
def planSet (lens : List ℕ) : MMReq :=
  (dedupAdj (sortLens lens)).foldl (fun r l => findReq l r l false) emptyReq

/-- The `each` buffer of length `L` exists for reading: length 1 is the raw
row itself (the C code keeps a direct pointer), other lengths must be marked
needed. -/
def EachNeeded (r : MMReq) (L : ℕ) : Prop := L = 1 ∨ (r.each L).needed = true

/-- The `even` buffer of length `L` is marked needed. -/
def EvenNeeded (r : MMReq) (L : ℕ) : Prop := (r.even L).needed = true

/-- Well-formedness of a composed (length at least 2) `each` entry, relative
to the tables `r` used to resolve its sub-buffers. -/
def OKeachBody (r : MMReq) (e : PlanEntry) (L : ℕ) : Prop :=
  e.even_even = false ∧ 1 ≤ e.sublen1 ∧ 1 ≤ e.sublen2 ∧ e.sublen1 + e.sublen2 = L ∧
    ((e.even_odd = true ∧ L % 2 = 1 ∧ EvenNeeded r e.sublen1 ∧ EachNeeded r e.sublen2) ∨
     (e.even_odd = false ∧ EachNeeded r e.sublen1 ∧ EachNeeded r e.sublen2))

/-- The exact construction rules the planner records for `even` entries:
`Even(2)` from two raw samples, `Even(4m)` from two copies of `Even(2m)`,
`Even(4m+2)` from `Even(2m)` (first) and `Even(2m+2)` (second). -/
def EvenRuleBody (r : MMReq) (e : PlanEntry) (L : ℕ) : Prop :=
  (L = 2 ∧ e.sublen1 = 1 ∧ e.sublen2 = 1 ∧ e.even_even = false ∧ e.even_odd = false) ∨
  (L % 4 = 0 ∧ 4 ≤ L ∧ e.sublen1 = L / 2 ∧ e.sublen2 = L / 2 ∧
    e.even_even = true ∧ e.even_odd = false ∧ EvenNeeded r (L / 2)) ∨
  (L % 4 = 2 ∧ 6 ≤ L ∧ e.sublen1 = L / 2 - 1 ∧ e.sublen2 = L / 2 + 1 ∧
    e.even_even = true ∧ e.even_odd = false ∧
    EvenNeeded r (L / 2 - 1) ∧ EvenNeeded r (L / 2 + 1))

/-- Well-formed planner tables: every needed entry is recorded by the source
construction rules with resolvable sub-buffers. -/
def MMValid (r : MMReq) : Prop :=
  ∀ L, ((r.each L).needed = true → 2 ≤ L → OKeachBody r (r.each L) L) ∧
       ((r.even L).needed = true → EvenRuleBody r (r.even L) L)

/-- The precomputed buffers of `min_precomputed_row_fill` /
`max_precomputed_row_fill` (parameterised by the comparator), as a function of
table (`false` = `each`, `true` = `even`), length and start index.

The C code fills buffers in increasing length order, each from already filled
buffers of strictly smaller lengths; the fuel argument makes that recursion
structural.  The write patterns of the compose loops are:
`compose_*_row_data_each`  : `target[i] = cmb(sub1[i], sub2[i+sublen1])`;
`compose_*_row_data_even`  : same, at even-aligned `i` only;
`compose_*_row_data_two`   : `target[i] = cmb(each1[i], each1[i+1])`, even `i`;
`compose_*_row_data_even_odd` interleaves two pointer pairs and writes
`target[i] = cmb(even[i], odd[i+evenlen])` at even `i` and
`target[i] = cmb(even[i+oddlen], odd[i])` at odd `i` (pointer trace of the
source loop: at step `2t` the first pair points at `even+2t` and
`odd+evenlen+2t`, at step `2t+1` the second pair points at `even+oddlen+1+2t`
and `odd+1+2t`). -/
def bufB (cmb : ℚ → ℚ → ℚ) (r : MMReq) (x : ℕ → ℚ) : ℕ → Bool → ℕ → ℕ → ℚ
  | 0, _, _, i => x i
  | fuel + 1, false, L, i =>
    if L ≤ 1 then x i
    else
      let e := r.each L
      if e.even_odd then
        if i % 2 = 0 then
          cmb (bufB cmb r x fuel true e.sublen1 i) (bufB cmb r x fuel false e.sublen2 (i + e.sublen1))
        else
          cmb (bufB cmb r x fuel true e.sublen1 (i + e.sublen2)) (bufB cmb r x fuel false e.sublen2 i)
      else
        cmb (bufB cmb r x fuel false e.sublen1 i) (bufB cmb r x fuel false e.sublen2 (i + e.sublen1))
  | fuel + 1, true, L, i =>
    let e := r.even L
    if e.even_even then
      cmb (bufB cmb r x fuel true e.sublen1 i) (bufB cmb r x fuel true e.sublen2 (i + e.sublen1))
    else
      cmb (bufB cmb r x fuel false e.sublen1 i) (bufB cmb r x fuel false e.sublen1 (i + 1))

/-- Entry `each[L][i]` after a row fill with comparator `cmb`. -/
def fillEach (cmb : ℚ → ℚ → ℚ) (r : MMReq) (x : ℕ → ℚ) (L i : ℕ) : ℚ :=
  bufB cmb r x L false L i

/-- Entry `even[L][i]` after a row fill with comparator `cmb`. -/
def fillEven (cmb : ℚ → ℚ → ℚ) (r : MMReq) (x : ℕ → ℚ) (L i : ℕ) : ℚ :=
  bufB cmb r x L true L i

/-- The row-scanning loop of `run_length_encode_mask` for one kernel row:
state `(j, l)` (current run start and length), emitting `(j, l)` when a run
ends; each iteration increases `j + l` by one, which the fuel argument counts.
Returns the `(col, len)` runs in left-to-right order. -/
def scanRuns (f : ℕ → Bool) (xres : ℕ) : ℕ → ℕ → ℕ → List (ℕ × ℕ)
  | 0, j, l => if l = 0 then [] else [(j, l)]
  | k + 1, j, l =>
    if j + l < xres then
      if f (j + l) then scanRuns f xres k j (l + 1)
      else if l = 0 then scanRuns f xres k (j + 1) 0
      else (j, l) :: scanRuns f xres k (j + l + 1) 0
    else if l = 0 then [] else [(j, l)]

/-- `run_length_encode_mask`: segments `(row, col, len)` of maximal horizontal
runs of true kernel cells, in row-major order. -/
def encodeRLE (K : ℕ → ℕ → Bool) (kxres kyres : ℕ) : List (ℕ × ℕ × ℕ) :=
  (List.range kyres).flatMap fun r => (scanRuns (K r) kxres kxres 0 0).map fun p => (r, p.1, p.2)

/-- The multiset of segment lengths handed to the planner
(`find_required_lengths_for_rle`). -/
def rleLens (mrle : List (ℕ × ℕ × ℕ)) : List ℕ := mrle.map fun s => s.2.2

/-- Insertion into a segment list sorted by `(row, col)` (`compare_segment`). -/
def insSeg (a : ℕ × ℕ × ℕ) : List (ℕ × ℕ × ℕ) → List (ℕ × ℕ × ℕ)
  | [] => [a]
  | b :: t => if a.1 < b.1 ∨ (a.1 = b.1 ∧ a.2.1 ≤ b.2.1) then a :: b :: t else b :: insSeg a t

/-- Sorting of segments by `(row, col)` after reflection (the `qsort` of
`gwy_data_field_area_rle_flip`). -/
def sortSegs (l : List (ℕ × ℕ × ℕ)) : List (ℕ × ℕ × ℕ) := l.foldr insSeg []

/-- `gwy_data_field_area_rle_flip`: 180-degree rotation of every segment,
`(row, col, len) ↦ (kyres-1-row, kxres-col-len, len)`, then re-sort. -/
def rleFlip (mrle : List (ℕ × ℕ × ℕ)) (kxres kyres : ℕ) : List (ℕ × ℕ × ℕ) :=
  sortSegs (mrle.map fun s => (kyres - 1 - s.1, kxres - s.2.1 - s.2.2, s.2.2))

/-- Membership of a kernel cell `(t, c)` in the cells covered by a segment
list. -/
def InSegs (mrle : List (ℕ × ℕ × ℕ)) (t c : ℕ) : Prop :=
  ∃ s ∈ mrle, s.1 = t ∧ s.2.1 ≤ c ∧ c < s.2.1 + s.2.2

/-- Clamp of the signed index `v - s` into `[0, bound-1]` (natural subtraction
saturates at 0), the net effect of border extension. -/
def clampI (v s bound : ℕ) : ℕ := min (v - s) (bound - 1)

/-- `row_extend_border` composed with `row_extend_base`: the borrowed-slice
arithmetic (`e2r`, `e2l`, the direct copy, the forward and backward edge
fills) translated literally; output position `t` of the extended row. -/
def rowExtendBorder (input : ℕ → ℚ) (pos width res el er : ℕ) : ℕ → ℚ :=
  let e2r := min er (res - (pos + width))
  let e2l := min el pos
  let el1 := el - e2l
  let pos1 := pos - e2l
  let width2 := width + e2r + e2l
  fun t =>
    if t < el1 then input 0
    else if t < el1 + width2 then input (pos1 + (t - el1))
    else input (res - 1)

/-- The extended working row built from source row `rho` of the field. -/
def extRowAt (d : ℕ → ℕ → ℚ) (xres col width el er rho : ℕ) : ℕ → ℚ :=
  rowExtendBorder (d rho) col width xres el er

/-- The asymmetric extension amounts `(extend_up, extend_down, extend_left,
extend_right)` chosen by `gwy_data_field_area_min_max_execute` from the
`maximum` flag. -/
def extendAmts (maximum : Bool) (kxres kyres : ℕ) : ℕ × ℕ × ℕ × ℕ :=
  if maximum then (kyres / 2, (kyres - 1) / 2, kxres / 2, (kxres - 1) / 2)
  else ((kyres - 1) / 2, kyres / 2, (kxres - 1) / 2, kxres / 2)

/-- Pointwise update of the rolling buffer array `prows`. -/
def updP (P : ℕ → Option (ℕ → ℚ)) (k : ℕ) (v : Option (ℕ → ℚ)) : ℕ → Option (ℕ → ℚ) :=
  fun n => if n = k then v else P n

/-- Iterate a step function over indices `0, 1, ..., n-1` in order (an
ascending C `for` loop). -/
def iterN {α : Type} (g : α → ℕ → α) (a : α) : ℕ → α
  | 0 => a
  | n + 1 => g (iterN g a n) n

/-- The two seeding loops of `gwy_data_field_area_min_max_execute` for the
first output row.  A buffer holds `some xrow` when it was written from the
extended row `xrow`; `none` is never-written memory (fresh `g_new`
allocations).  The first loop runs `i = 0..extend_down`: in-field rows fill
`prows[i+extend_up]`, otherwise the source copies `prows[i-1]` into `prows[i]`
(the indices of the else branch are the source's, not shifted by
`extend_up`).  The second loop runs `i = 1..extend_up` writing
`prows[extend_up-i]`, copying from `prows[(ii+1) % kyres]` above the top
edge. -/
def seedDown (d : ℕ → ℕ → ℚ) (xres yres col width row eu ed el er : ℕ) :
    ℕ → ℕ → Option (ℕ → ℚ) :=
  iterN
    (fun P i =>
      if row + i < yres then updP P (i + eu) (some (extRowAt d xres col width el er (row + i)))
      else updP P i (P (i - 1)))
    (fun _ => none)

def seedRows (d : ℕ → ℕ → ℚ) (xres yres col width row eu ed el er kyres : ℕ) :
    ℕ → Option (ℕ → ℚ) :=
  iterN
    (fun P i0 =>
      if i0 + 1 ≤ row then
        updP P (eu - (i0 + 1)) (some (extRowAt d xres col width el er (row - (i0 + 1))))
      else updP P (eu - (i0 + 1)) (P ((eu - (i0 + 1) + 1) % kyres)))
    (seedDown d xres yres col width row eu ed el er (ed + 1)) eu

/-- The per-row advance of the sweep: rotate `prows` by one (the old zeroth
buffer moves to position `kyres-1`), then fill it from source row
`row + inext + extend_down`, or copy `prows[kyres-2]` when that row is past
the bottom edge. -/
def advanceStep (d : ℕ → ℕ → ℚ) (xres yres col width row ed el er kyres : ℕ)
    (P : ℕ → Option (ℕ → ℚ)) (inext : ℕ) : ℕ → Option (ℕ → ℚ) :=
  let P1 : ℕ → Option (ℕ → ℚ) := fun t => if t < kyres - 1 then P (t + 1) else P 0
  if row + inext + ed < yres then
    updP P1 (kyres - 1) (some (extRowAt d xres col width el er (row + inext + ed)))
  else updP P1 (kyres - 1) (P1 (kyres - 2))

/-- The rolling buffers right before output row `i` is produced: the seed for
`i = 0`, then one advance per further row. -/
def prowsAt (d : ℕ → ℕ → ℚ) (xres yres col width row eu ed el er kyres : ℕ) :
    ℕ → ℕ → Option (ℕ → ℚ)
  | 0 => seedRows d xres yres col width row eu ed el er kyres
  | k + 1 => advanceStep d xres yres col width row ed el er kyres
      (prowsAt d xres yres col width row eu ed el er kyres k) (k + 1)

/-- Option combination: defined exactly when both operands were written. -/
def optMap2 {α β γ : Type} (f : α → β → γ) : Option α → Option β → Option γ
  | some a, some b => some (f a b)
  | _, _ => none

/-- The value a segment contributes at output column `j`:
`prows[seg.row]->each[seg.len][seg.col + j]`. -/
def segValue (cmb : ℚ → ℚ → ℚ) (req : MMReq) (P : ℕ → Option (ℕ → ℚ)) (j : ℕ)
    (s : ℕ × ℕ × ℕ) : Option ℚ :=
  (P s.1).map fun xr => bufB cmb req xr s.2.2 false s.2.2 (s.2.1 + j)

/-- `mask_rle_execute_min_max` at one output column: the first segment's data
is copied, the remaining segments are folded in with the comparator. -/
def execRow (cmb : ℚ → ℚ → ℚ) (req : MMReq) (mrle : List (ℕ × ℕ × ℕ))
    (P : ℕ → Option (ℕ → ℚ)) (j : ℕ) : Option ℚ :=
  match mrle with
  | [] => none
  | s :: rest =>
    rest.foldl (fun acc t => optMap2 cmb acc (segValue cmb req P j t)) (segValue cmb req P j s)

/-- `gwy_data_field_area_min_max_execute`: output pixel `(i, j)` of the area,
produced from the rolling buffers after `i` advances. -/
def minMaxExec (d : ℕ → ℕ → ℚ) (xres yres : ℕ) (mrle : List (ℕ × ℕ × ℕ)) (req : MMReq)
    (maximum : Bool) (col row width kxres kyres : ℕ) : ℕ → ℕ → Option ℚ :=
  let ea := extendAmts maximum kxres kyres
  fun i j =>
    execRow (if maximum then cMax else cMin) req mrle
      (prowsAt d xres yres col width row ea.1 ea.2.1 ea.2.2.1 ea.2.2.2 kyres i) j

/-- The filter types handled by `gwy_data_field_area_filter_min_max_real`. -/
inductive MMFilterTy where
  | minimum
  | maximum
  | range
  | normalization
  | opening
  | closing

/-- The `g_return_if_fail` region precondition of the real filter. -/
def regionOK (xres yres col row width height : ℕ) : Prop :=
  1 ≤ width ∧ 1 ≤ height ∧ col + width ≤ xres ∧ row + height ≤ yres

instance (xres yres col row width height : ℕ) :
    Decidable (regionOK xres yres col row width height) := by
  unfold regionOK; infer_instance

/-- The final write-back loops: area pixels take the output buffer, all other
pixels keep the prior image value. -/
def writeRegion (d : ℕ → ℕ → ℚ) (col row width height : ℕ) (out : ℕ → ℕ → Option ℚ) :
    ℕ → ℕ → Option ℚ :=
  fun r c =>
    if row ≤ r ∧ r < row + height ∧ col ≤ c ∧ c < col + width then out (r - row) (c - col)
    else some (d r c)

/-- The opening/closing branch of `gwy_data_field_area_filter_min_max_real`:
first pass over the clamped extended rectangle into a temporary field, second
pass (with the opposite extremum and re-flipped encoding) over the temporary
field, result written back to the requested area by the caller.  The read of
the temporary field unwraps the buffer contents (interior values; the frame
claims proved below do not depend on them). -/
def openingClosing (d : ℕ → ℕ → ℚ) (xres yres : ℕ) (K : ℕ → ℕ → Bool) (kxres kyres : ℕ)
    (col row width height : ℕ) (isClosing : Bool) : ℕ → ℕ → Option ℚ :=
  let mrle := encodeRLE K kxres kyres
  let req := planSet (rleLens mrle)
  let extcol := col - kxres / 2
  let extrow := row - kyres / 2
  let extwidth := min xres (col + width + kxres / 2) - extcol
  let extheight := min yres (row + height + kyres / 2) - extrow
  let m1 := if isClosing then rleFlip mrle kxres kyres else mrle
  let tmp := minMaxExec d xres yres m1 req isClosing extcol extrow extwidth kxres kyres
  let tmpField : ℕ → ℕ → ℚ := fun r c => (tmp r c).getD 0
  let m2 :=
    if extcol = col ∧ extrow = row ∧ extwidth = width ∧ extheight = height then
      rleFlip m1 kxres kyres
    else if isClosing then mrle else rleFlip mrle kxres kyres
  minMaxExec tmpField extwidth extheight m2 req (!isClosing) (col - extcol) (row - extrow)
    width kxres kyres

/-- `gwy_data_field_area_filter_min_max_real`: region precondition, then the
branch per filter type (min/max: one pass, the encoding flipped for maximum;
range/normalization: a minimum pass and a flipped maximum pass combined
pointwise; opening/closing: two passes over an extended rectangle).  The
result maps every pixel of the image to its new value. -/
def filterMinMaxReal (d : ℕ → ℕ → ℚ) (xres yres : ℕ) (K : ℕ → ℕ → Bool) (kxres kyres : ℕ)
    (ft : MMFilterTy) (col row width height : ℕ) : ℕ → ℕ → Option ℚ :=
  if regionOK xres yres col row width height then
    let mrle := encodeRLE K kxres kyres
    let req := planSet (rleLens mrle)
    match ft with
    | .minimum =>
      writeRegion d col row width height
        (minMaxExec d xres yres mrle req false col row width kxres kyres)
    | .maximum =>
      writeRegion d col row width height
        (minMaxExec d xres yres (rleFlip mrle kxres kyres) req true col row width kxres kyres)
    | .range =>
      writeRegion d col row width height
        (fun i j =>
          optMap2 (fun mx mn => mx - mn)
            (minMaxExec d xres yres (rleFlip mrle kxres kyres) req true col row width kxres kyres i j)
            (minMaxExec d xres yres mrle req false col row width kxres kyres i j))
    | .normalization =>
      writeRegion d col row width height
        (fun i j =>
          optMap2 (fun mn mx => if mn = mx then 1 / 2 else (d (row + i) (col + j) - mn) / (mx - mn))
            (minMaxExec d xres yres mrle req false col row width kxres kyres i j)
            (minMaxExec d xres yres (rleFlip mrle kxres kyres) req true col row width kxres kyres i j))
    | .opening =>
      writeRegion d col row width height
        (openingClosing d xres yres K kxres kyres col row width height false)
    | .closing =>
      writeRegion d col row width height
        (openingClosing d xres yres K kxres kyres col row width height true)
  else fun r c => some (d r c)

/-- `kernel_is_nonempty`: scan the flat kernel raster for a nonzero cell. -/
def kernelNonempty (K : ℕ → ℕ → Bool) (kxres kyres : ℕ) : Bool :=
  (List.range (kxres * kyres)).any fun t => K (t / kxres) (t % kxres)

/-- Modelled from the spec: `gwy_data_field_grains_autocrop` (its definition
is not under src/, only its caller) returns the tightest sub-rectangle of the
kernel containing all nonzero cells, or an empty (zero-size) raster when there
is none.  Result: (cropped data, cropped xres, cropped yres). -/
def autocropSpec (K : ℕ → ℕ → Bool) (kxres kyres : ℕ) : (ℕ → ℕ → Bool) × ℕ × ℕ :=
  let rows := (List.range kyres).filter fun r => (List.range kxres).any fun c => K r c
  let cols := (List.range kxres).filter fun c => (List.range kyres).any fun r => K r c
  match rows, cols with
  | r0 :: rs, c0 :: cs =>
    let rmin := rs.foldl Nat.min r0
    let rmax := rs.foldl Nat.max r0
    let cmin := cs.foldl Nat.min c0
    let cmax := cs.foldl Nat.max c0
    (fun r c => K (rmin + r) (cmin + c), cmax + 1 - cmin, rmax + 1 - rmin)
  | _, _ => (K, 0, 0)

/-- `gwy_data_field_area_filter_min_max`: duplicate the kernel, autocrop it,
and run the real filter only when the cropped kernel is nonempty; otherwise
the image is left untouched. -/
def filterMinMax (d : ℕ → ℕ → ℚ) (xres yres : ℕ) (K : ℕ → ℕ → Bool) (kxres kyres : ℕ)
    (ft : MMFilterTy) (col row width height : ℕ) : ℕ → ℕ → Option ℚ :=
  let a := autocropSpec K kxres kyres
  if kernelNonempty a.1 a.2.1 a.2.2 then
    filterMinMaxReal d xres yres a.1 a.2.1 a.2.2 ft col row width height
  else fun r c => some (d r c)

/-- Cells `(row, col)` of the kernel raster that are members of the
structuring element, in row-major order: the reference neighbourhood for the
brute-force filters. -/
def kernelCellList (K : ℕ → ℕ → Bool) (kxres kyres : ℕ) : List (ℕ × ℕ) :=
  (List.range kyres).flatMap fun r => ((List.range kxres).filter fun c => K r c).map fun c => (r, c)

/-- The 180-degree point reflection of the kernel raster. -/
def reflKernel (K : ℕ → ℕ → Bool) (kxres kyres : ℕ) : ℕ → ℕ → Bool :=
  fun r c => K (kyres - 1 - r) (kxres - 1 - c)

/-- Border-extended sample of the image at area pixel `(i, j)` offset by
kernel cell `s`, with centering `(eu, el)`. -/
def bruteCellVal (d : ℕ → ℕ → ℚ) (xres yres col row eu el i j : ℕ) (s : ℕ × ℕ) : ℚ :=
  d (clampI (row + i + s.1) eu yres) (clampI (col + j + s.2) el xres)

/-- Fold of a nonempty value list with the comparator (`none` for an empty
neighbourhood). -/
def listExtreme (cmb : ℚ → ℚ → ℚ) : List ℚ → Option ℚ
  | [] => none
  | v :: rest => some (rest.foldl cmb v)

/-- Brute-force border-extended erosion: the minimum of the extended image
over the kernel neighbourhood with the erosion centering
`((kyres-1)/2, (kxres-1)/2)`. -/
def bruteErosion (d : ℕ → ℕ → ℚ) (xres yres : ℕ) (K : ℕ → ℕ → Bool) (kxres kyres : ℕ)
    (col row i j : ℕ) : Option ℚ :=
  listExtreme cMin
    ((kernelCellList K kxres kyres).map
      (bruteCellVal d xres yres col row ((kyres - 1) / 2) ((kxres - 1) / 2) i j))

/-- Brute-force border-extended dilation: the maximum of the extended image
over the point-reflected kernel neighbourhood with the dilation centering
`(kyres/2, kxres/2)`. -/
def bruteDilation (d : ℕ → ℕ → ℚ) (xres yres : ℕ) (K : ℕ → ℕ → Bool) (kxres kyres : ℕ)
    (col row i j : ℕ) : Option ℚ :=
  listExtreme cMax
    ((kernelCellList (reflKernel K kxres kyres) kxres kyres).map
      (bruteCellVal d xres yres col row (kyres / 2) (kxres / 2) i j))

/-- Concrete 1-pixel image of value 5 (seeding-defect scenario). -/
def cexField1 : ℕ → ℕ → ℚ := fun _ _ => 5

/-- Concrete 1-column, 3-row all-ones kernel (a convex vertical bar). -/
def cexKernelCol3 : ℕ → ℕ → Bool := fun _ _ => true

/-- Concrete 1-row image `[0, 5, 9, 0, 5]` (range counterexample). -/
def cexFieldRange : ℕ → ℕ → ℚ := fun _ c => [(0 : ℚ), 5, 9, 0, 5].getD c 0

/-- Concrete 1-row kernel `[1, 0, 0, 1]` (point-symmetric, no centre cell). -/
def cexKernelHole4 : ℕ → ℕ → Bool := fun _ c => c = 0 || c = 3

/-- Concrete 1-row image `[0, 5, 1]` (normalization counterexample). -/
def cexFieldNorm : ℕ → ℕ → ℚ := fun _ c => [(0 : ℚ), 5, 1].getD c 0

/-- Concrete 1-row kernel `[1, 0, 1]` (symmetric, no centre cell). -/
def cexKernelHole3 : ℕ → ℕ → Bool := fun _ c => c = 0 || c = 2

/-- Concrete row `[3, 1, 4, 1, 5]` used to witness the row-fill theorem. -/
def wRow : ℕ → ℚ := fun t => [(3 : ℚ), 1, 4, 1, 5].getD t 0

/-- Concrete all-zero kernel raster. -/
def cexKernelZero : ℕ → ℕ → Bool := fun _ _ => false

/-- Concrete 5-pixel single-row image `[3, 1, 4, 1, 5]`. -/
def specField : ℕ → ℕ → ℚ := fun _ c => [(3 : ℚ), 1, 4, 1, 5].getD c 0

/-- Concrete all-ones kernel raster (flat rectangle of any declared size). -/
def onesKernel : ℕ → ℕ → Bool := fun _ _ => true

/-- Table evolution of the planner: entries already needed are left exactly
as they are (the early return of `maybe_set_req`). -/
def Pres (r r2 : MMReq) : Prop :=
  ∀ L, ((r.each L).needed = true → r2.each L = r.each L) ∧
       ((r.even L).needed = true → r2.even L = r.even L)

/-- Neededness only grows while the planner runs. -/
def NeedGe (r r2 : MMReq) : Prop :=
  ∀ L, ((r.each L).needed = true → (r2.each L).needed = true) ∧
       ((r.even L).needed = true → (r2.even L).needed = true)

/-! ### Comparator lemmas -/

theorem cMin_le_left (a b : ℚ) : cMin a b ≤ a := by
  unfold cMin; split_ifs <;> linarith

theorem cMin_le_right (a b : ℚ) : cMin a b ≤ b := by
  unfold cMin; split_ifs <;> linarith

theorem cMin_choice (a b : ℚ) : cMin a b = a ∨ cMin a b = b := by
  unfold cMin; split_ifs <;> simp

theorem cMin_assoc (a b c : ℚ) : cMin (cMin a b) c = cMin a (cMin b c) := by
  unfold cMin; split_ifs <;> linarith

theorem cMin_comm (a b : ℚ) : cMin a b = cMin b a := by
  unfold cMin; split_ifs <;> linarith

theorem le_cMax_left (a b : ℚ) : a ≤ cMax a b := by
  unfold cMax; split_ifs <;> linarith

theorem le_cMax_right (a b : ℚ) : b ≤ cMax a b := by
  unfold cMax; split_ifs <;> linarith

theorem cMax_choice (a b : ℚ) : cMax a b = a ∨ cMax a b = b := by
  unfold cMax; split_ifs <;> simp

theorem cMax_assoc (a b c : ℚ) : cMax (cMax a b) c = cMax a (cMax b c) := by
  unfold cMax; split_ifs <;> linarith

theorem cMax_comm (a b : ℚ) : cMax a b = cMax b a := by
  unfold cMax; split_ifs <;> linarith

/-! ### Window lemmas -/

theorem windowFold_split (cmb : ℚ → ℚ → ℚ)
    (hassoc : ∀ a b c, cmb (cmb a b) c = cmb a (cmb b c)) (x : ℕ → ℚ) :
    ∀ a b i, windowFold cmb x (a + b + 1) i =
      cmb (windowFold cmb x a i) (windowFold cmb x b (i + a + 1)) := by
  intro a
  induction a with
  | zero => intro b i; simp [windowFold]
  | succ a ih =>
    intro b i
    have h1 : a + 1 + b + 1 = (a + b + 1) + 1 := by omega
    rw [h1]
    show cmb (x i) (windowFold cmb x (a + b + 1) (i + 1)) = _
    rw [ih b (i + 1), ← hassoc]
    have h2 : i + 1 + a + 1 = i + (a + 1) + 1 := by omega
    rw [h2]
    rfl

theorem windowFold_min_le (x : ℕ → ℚ) :
    ∀ n i t, i ≤ t → t ≤ i + n → windowFold cMin x n i ≤ x t := by
  intro n
  induction n with
  | zero => intro i t h1 h2; have : t = i := by omega
            subst this; exact le_refl _
  | succ n ih =>
    intro i t h1 h2
    show cMin (x i) (windowFold cMin x n (i + 1)) ≤ x t
    rcases Nat.eq_or_lt_of_le h1 with h | h
    · subst h; exact cMin_le_left _ _
    · exact le_trans (cMin_le_right _ _) (ih (i + 1) t h (by omega))

theorem le_windowFold_max (x : ℕ → ℚ) :
    ∀ n i t, i ≤ t → t ≤ i + n → x t ≤ windowFold cMax x n i := by
  intro n
  induction n with
  | zero => intro i t h1 h2; have : t = i := by omega
            subst this; exact le_refl _
  | succ n ih =>
    intro i t h1 h2
    show x t ≤ cMax (x i) (windowFold cMax x n (i + 1))
    rcases Nat.eq_or_lt_of_le h1 with h | h
    · subst h; exact le_cMax_left _ _
    · exact le_trans (ih (i + 1) t h (by omega)) (le_cMax_right _ _)

theorem windowFold_choice (cmb : ℚ → ℚ → ℚ)
    (hch : ∀ a b, cmb a b = a ∨ cmb a b = b) (x : ℕ → ℚ) :
    ∀ n i, ∃ t, i ≤ t ∧ t ≤ i + n ∧ windowFold cmb x n i = x t := by
  intro n
  induction n with
  | zero => intro i; exact ⟨i, le_refl _, by omega, rfl⟩
  | succ n ih =>
    intro i
    show ∃ t, _ ∧ _ ∧ cmb (x i) (windowFold cmb x n (i + 1)) = x t
    rcases hch (x i) (windowFold cmb x n (i + 1)) with h | h
    · exact ⟨i, le_refl _, by omega, h⟩
    · obtain ⟨t, ht1, ht2, ht3⟩ := ih (i + 1)
      exact ⟨t, by omega, by omega, by rw [h, ht3]⟩

/-! ### Planner table lemmas -/

theorem updEach_each (r : MMReq) (b : ℕ) (e : PlanEntry) (L : ℕ) :
    (updEach r b e).each L = if L = b then e else r.each L := rfl

theorem updEach_even (r : MMReq) (b : ℕ) (e : PlanEntry) (L : ℕ) :
    (updEach r b e).even L = r.even L := rfl

theorem updEven_each (r : MMReq) (b : ℕ) (e : PlanEntry) (L : ℕ) :
    (updEven r b e).each L = r.each L := rfl

theorem updEven_even (r : MMReq) (b : ℕ) (e : PlanEntry) (L : ℕ) :
    (updEven r b e).even L = if L = b then e else r.even L := rfl

theorem updEach_self (r : MMReq) (b : ℕ) (e : PlanEntry) : (updEach r b e).each b = e := by
  simp [updEach_each]

theorem updEven_self (r : MMReq) (b : ℕ) (e : PlanEntry) : (updEven r b e).even b = e := by
  simp [updEven_even]

theorem updEach_ne (r : MMReq) (b : ℕ) (e : PlanEntry) (L : ℕ) (h : L ≠ b) :
    (updEach r b e).each L = r.each L := by simp [updEach_each, h]

theorem updEven_ne (r : MMReq) (b : ℕ) (e : PlanEntry) (L : ℕ) (h : L ≠ b) :
    (updEven r b e).even L = r.even L := by simp [updEven_even, h]

theorem presRefl (r : MMReq) : Pres r r := fun _ => ⟨fun _ => rfl, fun _ => rfl⟩

theorem presTrans {r1 r2 r3 : MMReq} (h1 : Pres r1 r2) (h2 : Pres r2 r3) : Pres r1 r3 := by
  intro L
  constructor
  · intro h
    have e1 := (h1 L).1 h
    have hn : (r2.each L).needed = true := by rw [e1]; exact h
    rw [(h2 L).1 hn, e1]
  · intro h
    have e1 := (h1 L).2 h
    have hn : (r2.even L).needed = true := by rw [e1]; exact h
    rw [(h2 L).2 hn, e1]

theorem presUpdEach (r : MMReq) (b : ℕ) (e : PlanEntry) (hb : ¬(r.each b).needed = true) :
    Pres r (updEach r b e) := by
  intro L
  refine ⟨fun h => ?_, fun _ => rfl⟩
  rw [updEach_each]
  split_ifs with hL
  · subst hL; exact absurd h hb
  · rfl

theorem presUpdEven (r : MMReq) (b : ℕ) (e : PlanEntry) (hb : ¬(r.even b).needed = true) :
    Pres r (updEven r b e) := by
  intro L
  refine ⟨fun _ => rfl, fun h => ?_⟩
  rw [updEven_even]
  split_ifs with hL
  · subst hL; exact absurd h hb
  · rfl

theorem findReq_pres : ∀ (fuel : ℕ) (r : MMReq) (blen : ℕ) (isEv : Bool),
    Pres r (findReq fuel r blen isEv) := by
  intro fuel
  induction fuel with
  | zero => intro r blen isEv; exact presRefl r
  | succ fuel ih =>
    intro r blen isEv
    simp only [findReq]
    split_ifs with hEv hNe hB2 hB40 hB42 hNe2 hB1 hMod
    · exact presRefl r
    · exact presTrans (by subst hB2; exact presUpdEven r 2 _ hNe) (ih _ _ _)
    · exact presTrans (presUpdEven r blen _ hNe) (ih _ _ _)
    · exact presTrans (presUpdEven r blen _ hNe)
        (presTrans (ih _ (blen / 2 - 1) true) (ih _ (blen / 2 + 1) true))
    · exact presRefl r
    · exact presRefl r
    · subst hB1; exact presUpdEach r 1 _ hNe2
    · cases hs : scanEvenSplit r blen 1 blen with
      | some p =>
        obtain ⟨i, j⟩ := p
        simp only [evenSplitCase]
        exact presUpdEach r blen _ hNe2
      | none =>
        simp only [evenSplitCase]
        exact presTrans (presUpdEach r blen _ hNe2) (ih _ _ _)
    · cases hs : scanOddSplit r blen 1 0 blen with
      | found s1 s2 eo =>
        simp only [oddSplitCase]
        exact presUpdEach r blen _ hNe2
      | fb a =>
        simp only [oddSplitCase]
        split_ifs with ha hm4
        · exact presTrans (presUpdEach r blen _ hNe2)
            (presTrans (ih _ (blen / 2) true) (ih _ (blen / 2 + 1) false))
        · exact presTrans (presUpdEach r blen _ hNe2)
            (presTrans (ih _ (blen / 2 + 1) true) (ih _ (blen / 2) false))
        · exact presTrans (presUpdEach r blen _ hNe2) (ih _ _ _)

theorem needGe_of_pres {r r2 : MMReq} (h : Pres r r2) : NeedGe r r2 := by
  intro L
  exact ⟨fun hh => by rw [(h L).1 hh]; exact hh, fun hh => by rw [(h L).2 hh]; exact hh⟩

theorem needGeTrans {r1 r2 r3 : MMReq} (h1 : NeedGe r1 r2) (h2 : NeedGe r2 r3) : NeedGe r1 r3 :=
  fun L => ⟨fun h => (h2 L).1 ((h1 L).1 h), fun h => (h2 L).2 ((h1 L).2 h)⟩

theorem needed_after_each (fuel : ℕ) (r2 : MMReq) (b : ℕ) (iv : Bool) {L : ℕ}
    (h : (r2.each L).needed = true) : ((findReq fuel r2 b iv).each L).needed = true := by
  rw [(findReq_pres fuel r2 b iv L).1 h]; exact h

theorem needed_after_even (fuel : ℕ) (r2 : MMReq) (b : ℕ) (iv : Bool) {L : ℕ}
    (h : (r2.even L).needed = true) : ((findReq fuel r2 b iv).even L).needed = true := by
  rw [(findReq_pres fuel r2 b iv L).2 h]; exact h

theorem findReq_marks_each : ∀ (fuel : ℕ) (r : MMReq) (blen : ℕ), 1 ≤ blen → blen ≤ fuel →
    ((findReq fuel r blen false).each blen).needed = true := by
  intro fuel
  induction fuel with
  | zero => intro r blen h1 h2; omega
  | succ fuel ih =>
    intro r blen h1 h2
    simp only [findReq]
    rw [if_neg Bool.false_ne_true]
    split_ifs with hNe hB1 hMod
    · exact hNe
    · subst hB1; rw [updEach_self]
    · cases hs : scanEvenSplit r blen 1 blen with
      | some p =>
        obtain ⟨i, j⟩ := p
        simp only [evenSplitCase]
        rw [updEach_self]; rfl
      | none =>
        simp only [evenSplitCase]
        exact needed_after_each fuel _ _ _ (by rw [updEach_self]; rfl)
    · cases hs : scanOddSplit r blen 1 0 blen with
      | found s1 s2 eo =>
        simp only [oddSplitCase]
        rw [updEach_self]; rfl
      | fb a =>
        simp only [oddSplitCase]
        split_ifs with ha hm4
        · exact needed_after_each fuel _ _ _
            (needed_after_each fuel _ _ _ (by rw [updEach_self]; rfl))
        · exact needed_after_each fuel _ _ _
            (needed_after_each fuel _ _ _ (by rw [updEach_self]; rfl))
        · exact needed_after_each fuel _ _ _ (by rw [updEach_self]; rfl)

theorem findReq_marks_even : ∀ (fuel : ℕ) (r : MMReq) (blen : ℕ),
    2 ≤ blen → blen % 2 = 0 → blen ≤ fuel →
    ((findReq fuel r blen true).even blen).needed = true := by
  intro fuel
  induction fuel with
  | zero => intro r blen h1 _ h2; omega
  | succ fuel ih =>
    intro r blen h1 hmod h2
    simp only [findReq]
    rw [if_pos trivial]
    split_ifs with hNe hB2 hB40 hB42
    · exact hNe
    · subst hB2; exact needed_after_even fuel _ _ _ (by rw [updEven_self]; rfl)
    · exact needed_after_even fuel _ _ _ (by rw [updEven_self]; rfl)
    · exact needed_after_even fuel _ _ _
        (needed_after_even fuel _ _ _ (by rw [updEven_self]; rfl))
    · omega

theorem scanEvenSplit_sound (r : MMReq) (blen : ℕ) :
    ∀ (k i p q : ℕ), 1 ≤ i → scanEvenSplit r blen i k = some (p, q) →
      (r.each p).needed = true ∧ (r.each q).needed = true ∧ p + q = blen ∧ 1 ≤ p ∧ 1 ≤ q := by
  intro k
  induction k with
  | zero => intro i p q h1 h; simp [scanEvenSplit] at h
  | succ k ih =>
    intro i p q h1 h
    simp only [scanEvenSplit] at h
    split_ifs at h with hi hb
    · rw [Option.some.injEq, Prod.mk.injEq] at h
      obtain ⟨h2, h3⟩ := h
      subst h2; subst h3
      rw [Bool.and_eq_true] at hb
      exact ⟨hb.1, hb.2, by omega, h1, by omega⟩
    · exact ih (i + 1) p q (by omega) h

theorem scanOddSplit_found (r : MMReq) (blen : ℕ) :
    ∀ (k i a s1 s2 : ℕ) (eo : Bool), 1 ≤ i → scanOddSplit r blen i a k = .found s1 s2 eo →
      s1 + s2 = blen ∧ 1 ≤ s1 ∧ 1 ≤ s2 ∧
        ((eo = false ∧ (r.each s1).needed = true ∧ (r.each s2).needed = true) ∨
         (eo = true ∧ (r.even s1).needed = true ∧ (r.each s2).needed = true)) := by
  intro k
  induction k with
  | zero => intro i a s1 s2 eo h1 h; simp [scanOddSplit] at h
  | succ k ih =>
    intro i a s1 s2 eo h1 h
    simp only [scanOddSplit] at h
    split_ifs at h with hi hb1 hb2 hb3 hbn
    · rw [OddSplit.found.injEq] at h
      obtain ⟨h2, h3, h4⟩ := h
      subst h2; subst h3; subst h4
      rw [Bool.and_eq_true] at hb1
      exact ⟨by omega, h1, by omega, Or.inl ⟨rfl, hb1.1, hb1.2⟩⟩
    · rw [OddSplit.found.injEq] at h
      obtain ⟨h2, h3, h4⟩ := h
      subst h2; subst h3; subst h4
      rw [Bool.and_eq_true] at hb2
      exact ⟨by omega, h1, by omega, Or.inr ⟨rfl, hb2.1, hb2.2⟩⟩
    · rw [OddSplit.found.injEq] at h
      obtain ⟨h2, h3, h4⟩ := h
      subst h2; subst h3; subst h4
      rw [Bool.and_eq_true] at hb3
      exact ⟨by omega, by omega, h1, Or.inr ⟨rfl, hb3.2, hb3.1⟩⟩
    · exact ih (i + 1) i s1 s2 eo (by omega) h
    · exact ih (i + 1) a s1 s2 eo (by omega) h

theorem scanOddSplit_fb (r : MMReq) (blen : ℕ) :
    ∀ (k i a a2 : ℕ), 1 ≤ i →
      (a = 0 ∨ ((r.each a).needed = true ∧ 1 ≤ a ∧ a < blen)) →
      scanOddSplit r blen i a k = .fb a2 →
      (a2 = 0 ∨ ((r.each a2).needed = true ∧ 1 ≤ a2 ∧ a2 < blen)) := by
  intro k
  induction k with
  | zero =>
    intro i a a2 h1 ha h
    simp only [scanOddSplit, OddSplit.fb.injEq] at h
    subst h; exact ha
  | succ k ih =>
    intro i a a2 h1 ha h
    simp only [scanOddSplit] at h
    split_ifs at h with hi hb1 hb2 hb3 hbn
    · exact ih (i + 1) i a2 (by omega) (Or.inr ⟨hbn, h1, by omega⟩) h
    · exact ih (i + 1) a a2 (by omega) ha h
    · rw [OddSplit.fb.injEq] at h
      exact h ▸ ha

/-! ### Monotonicity of the well-formedness predicates -/

theorem eachNeeded_mono {r r2 : MMReq} {L : ℕ} (h : NeedGe r r2) :
    EachNeeded r L → EachNeeded r2 L := fun hh =>
  hh.elim (fun h1 => Or.inl h1) (fun h1 => Or.inr ((h L).1 h1))

theorem evenNeeded_mono {r r2 : MMReq} {L : ℕ} (h : NeedGe r r2) :
    EvenNeeded r L → EvenNeeded r2 L := fun hh => (h L).2 hh

theorem okEachBody_mono {r r2 : MMReq} {en : PlanEntry} {L : ℕ} (h : NeedGe r r2) :
    OKeachBody r en L → OKeachBody r2 en L := by
  rintro ⟨h1, h2, h3, h4, h5⟩
  refine ⟨h1, h2, h3, h4, ?_⟩
  rcases h5 with ⟨a, b, c, d⟩ | ⟨a, b, c⟩
  · exact Or.inl ⟨a, b, evenNeeded_mono h c, eachNeeded_mono h d⟩
  · exact Or.inr ⟨a, eachNeeded_mono h b, eachNeeded_mono h c⟩

theorem evenRuleBody_mono {r r2 : MMReq} {en : PlanEntry} {L : ℕ} (h : NeedGe r r2) :
    EvenRuleBody r en L → EvenRuleBody r2 en L := by
  rintro (h1 | ⟨a, b, c, d, e1, f1, g1⟩ | ⟨a, b, c, d, e1, f1, g1, g2⟩)
  · exact Or.inl h1
  · exact Or.inr (Or.inl ⟨a, b, c, d, e1, f1, evenNeeded_mono h g1⟩)
  · exact Or.inr (Or.inr ⟨a, b, c, d, e1, f1, evenNeeded_mono h g1, evenNeeded_mono h g2⟩)

theorem mkEntry_needed (s1 s2 : ℕ) (eo ee : Bool) : (mkEntry s1 s2 eo ee).needed = true := rfl

theorem mkEntry_s1 (s1 s2 : ℕ) (eo ee : Bool) : (mkEntry s1 s2 eo ee).sublen1 = s1 := rfl

theorem mkEntry_s2 (s1 s2 : ℕ) (eo ee : Bool) : (mkEntry s1 s2 eo ee).sublen2 = s2 := rfl

theorem mkEntry_ee (s1 s2 : ℕ) (eo ee : Bool) : (mkEntry s1 s2 eo ee).even_even = ee := rfl

theorem mkEntry_eo (s1 s2 : ℕ) (eo ee : Bool) : (mkEntry s1 s2 eo ee).even_odd = eo := rfl

theorem findReq_new_ok : ∀ (fuel : ℕ) (r : MMReq) (blen : ℕ) (isEv : Bool),
    1 ≤ blen → blen ≤ fuel → (isEv = true → 2 ≤ blen ∧ blen % 2 = 0) →
    ∀ L,
      (((findReq fuel r blen isEv).each L).needed = true → ¬(r.each L).needed = true → 2 ≤ L →
        OKeachBody (findReq fuel r blen isEv) ((findReq fuel r blen isEv).each L) L) ∧
      (((findReq fuel r blen isEv).even L).needed = true → ¬(r.even L).needed = true →
        EvenRuleBody (findReq fuel r blen isEv) ((findReq fuel r blen isEv).even L) L) := by
  intro fuel
  induction fuel with
  | zero => intro r blen isEv h1 h2; omega
  | succ fuel ih =>
    intro r blen isEv h1 h2 hEv L
    simp only [findReq]
    split_ifs with hIsEv hNe hB2 hB40 hB42 hNe2 hB1 hMod
    · exact ⟨fun ha hf _ => absurd ha hf, fun ha hf => absurd ha hf⟩
    · -- Even(2) = Each(1) + Each(1)
      subst hB2
      constructor
      · intro ha hf h2L
        exact (ih (updEven r 2 (mkEntry 1 1 false false)) 1 false (le_refl 1) (by omega)
          (by simp) L).1 ha hf h2L
      · intro ha hf
        by_cases hL : L = 2
        · subst hL
          have hn : ((updEven r 2 (mkEntry 1 1 false false)).even 2).needed = true := by
            rw [updEven_self]; rfl
          rw [(findReq_pres fuel _ 1 false 2).2 hn, updEven_self]
          exact Or.inl ⟨rfl, rfl, rfl, rfl, rfl⟩
        · have hf2 : ¬((updEven r 2 (mkEntry 1 1 false false)).even L).needed = true := by
            rw [updEven_ne r 2 _ L hL]; exact hf
          exact (ih _ 1 false (le_refl 1) (by omega) (by simp) L).2 ha hf2
    · -- Even(4m) = Even(2m) + Even(2m)
      have hB : 2 ≤ blen ∧ blen % 2 = 0 := hEv hIsEv
      have hge4 : 4 ≤ blen := by omega
      constructor
      · intro ha hf h2L
        exact (ih (updEven r blen (mkEntry (blen / 2) (blen / 2) false true)) (blen / 2) true
          (by omega) (by omega) (fun _ => by omega) L).1 ha hf h2L
      · intro ha hf
        by_cases hL : L = blen
        · subst hL
          have hn : ((updEven r L (mkEntry (L / 2) (L / 2) false true)).even L).needed = true := by
            rw [updEven_self]; rfl
          rw [(findReq_pres fuel _ (L / 2) true L).2 hn, updEven_self]
          refine Or.inr (Or.inl ⟨hB40, by omega, rfl, rfl, rfl, rfl, ?_⟩)
          exact findReq_marks_even fuel _ (L / 2) (by omega) (by omega) (by omega)
        · have hf2 : ¬((updEven r blen (mkEntry (blen / 2) (blen / 2) false true)).even L).needed
              = true := by rw [updEven_ne r blen _ L hL]; exact hf
          exact (ih _ (blen / 2) true (by omega) (by omega) (fun _ => by omega) L).2 ha hf2
    · -- Even(4m+2) = Even(2m) + Even(2m+2) (recorded as sublens (2m, 2m+2))
      have hB : 2 ≤ blen ∧ blen % 2 = 0 := hEv hIsEv
      have hge6 : 6 ≤ blen := by omega
      have hc1 : (1:ℕ) ≤ blen / 2 - 1 := by omega
      have hcf1 : blen / 2 - 1 ≤ fuel := by omega
      have hcp1 : (true : Bool) = true → 2 ≤ blen / 2 - 1 ∧ (blen / 2 - 1) % 2 = 0 :=
        fun _ => by omega
      have hc2 : (1:ℕ) ≤ blen / 2 + 1 := by omega
      have hcf2 : blen / 2 + 1 ≤ fuel := by omega
      have hcp2 : (true : Bool) = true → 2 ≤ blen / 2 + 1 ∧ (blen / 2 + 1) % 2 = 0 :=
        fun _ => by omega
      constructor
      · intro ha hf h2L
        by_cases h3 : ((findReq fuel (updEven r blen (mkEntry (blen / 2 - 1) (blen / 2 + 1)
            false true)) (blen / 2 - 1) true).each L).needed = true
        · have hOK := (ih _ (blen / 2 - 1) true hc1 hcf1 hcp1 L).1 h3 hf h2L
          rw [(findReq_pres fuel _ (blen / 2 + 1) true L).1 h3]
          exact okEachBody_mono (needGe_of_pres (findReq_pres fuel _ (blen / 2 + 1) true)) hOK
        · exact (ih _ (blen / 2 + 1) true hc2 hcf2 hcp2 L).1 ha h3 h2L
      · intro ha hf
        by_cases hL : L = blen
        · subst hL
          have hn : ((updEven r L (mkEntry (L / 2 - 1) (L / 2 + 1) false true)).even L).needed
              = true := by rw [updEven_self]; rfl
          have hn3 : ((findReq fuel (updEven r L (mkEntry (L / 2 - 1) (L / 2 + 1) false true))
              (L / 2 - 1) true).even L).needed = true := by
            rw [(findReq_pres fuel _ (L / 2 - 1) true L).2 hn]; exact hn
          rw [(findReq_pres fuel _ (L / 2 + 1) true L).2 hn3,
            (findReq_pres fuel _ (L / 2 - 1) true L).2 hn, updEven_self]
          refine Or.inr (Or.inr ⟨hB42, by omega, rfl, rfl, rfl, rfl, ?_, ?_⟩)
          · have m1 := findReq_marks_even fuel
              (updEven r L (mkEntry (L / 2 - 1) (L / 2 + 1) false true)) (L / 2 - 1)
              (by omega) (by omega) (by omega)
            exact ((needGe_of_pres (findReq_pres fuel _ (L / 2 + 1) true)) (L / 2 - 1)).2 m1
          · exact findReq_marks_even fuel _ (L / 2 + 1) (by omega) (by omega) (by omega)
        · by_cases h3 : ((findReq fuel (updEven r blen (mkEntry (blen / 2 - 1) (blen / 2 + 1)
              false true)) (blen / 2 - 1) true).even L).needed = true
          · have hf2 : ¬((updEven r blen (mkEntry (blen / 2 - 1) (blen / 2 + 1) false true)).even
                L).needed = true := by rw [updEven_ne r blen _ L hL]; exact hf
            have hOK := (ih _ (blen / 2 - 1) true hc1 hcf1 hcp1 L).2 h3 hf2
            rw [(findReq_pres fuel _ (blen / 2 + 1) true L).2 h3]
            exact evenRuleBody_mono (needGe_of_pres (findReq_pres fuel _ (blen / 2 + 1) true)) hOK
          · exact (ih _ (blen / 2 + 1) true hc2 hcf2 hcp2 L).2 ha h3
    · -- even-table call with blocklen not divisible by 2: unreachable
      exfalso
      have hB := hEv hIsEv
      omega
    · exact ⟨fun ha hf _ => absurd ha hf, fun ha hf => absurd ha hf⟩
    · -- Each(1): the primitive
      subst hB1
      constructor
      · intro ha hf h2L
        rw [updEach_ne r 1 _ L (by omega)] at ha
        exact absurd ha hf
      · exact fun ha hf => absurd ha hf
    · -- even blocklen in the each table
      cases hs : scanEvenSplit r blen 1 blen with
      | some p =>
        obtain ⟨p1, p2⟩ := p
        simp only [evenSplitCase]
        obtain ⟨hp1, hp2, hsum, hp1ge, hp2ge⟩ := scanEvenSplit_sound r blen blen 1 p1 p2
          (le_refl 1) hs
        constructor
        · intro ha hf h2L
          by_cases hL : L = blen
          · subst hL
            rw [updEach_self]
            refine ⟨rfl, ?_, ?_, ?_, Or.inr ⟨rfl, ?_, ?_⟩⟩
            · simp only [mkEntry_s1]; omega
            · simp only [mkEntry_s2]; omega
            · simp only [mkEntry_s1, mkEntry_s2]; omega
            · refine Or.inr ?_
              rw [mkEntry_s1, updEach_ne r L _ p1 (by omega)]
              exact hp1
            · refine Or.inr ?_
              rw [mkEntry_s2, updEach_ne r L _ p2 (by omega)]
              exact hp2
          · rw [updEach_ne r blen _ L hL] at ha
            exact absurd ha hf
        · exact fun ha hf => absurd ha hf
      | none =>
        simp only [evenSplitCase]
        have hge2 : 2 ≤ blen := by omega
        constructor
        · intro ha hf h2L
          by_cases hL : L = blen
          · subst hL
            have hn : ((updEach r L (mkEntry (L / 2) (L / 2) false false)).each L).needed
                = true := by rw [updEach_self]; rfl
            rw [(findReq_pres fuel _ (L / 2) false L).1 hn, updEach_self]
            refine ⟨rfl, ?_, ?_, ?_, Or.inr ⟨rfl, ?_, ?_⟩⟩
            · simp only [mkEntry_s1]; omega
            · simp only [mkEntry_s2]; omega
            · simp only [mkEntry_s1, mkEntry_s2]; omega
            · rw [mkEntry_s1]
              exact Or.inr (findReq_marks_each fuel _ (L / 2) (by omega) (by omega))
            · rw [mkEntry_s2]
              exact Or.inr (findReq_marks_each fuel _ (L / 2) (by omega) (by omega))
          · have hf2 : ¬((updEach r blen (mkEntry (blen / 2) (blen / 2) false false)).each
                L).needed = true := by rw [updEach_ne r blen _ L hL]; exact hf
            exact (ih _ (blen / 2) false (by omega) (by omega) (by simp) L).1 ha hf2 h2L
        · intro ha hf
          exact (ih _ (blen / 2) false (by omega) (by omega) (by simp) L).2 ha hf
    · -- odd blocklen in the each table
      cases hs : scanOddSplit r blen 1 0 blen with
      | found s1 s2 eo =>
        simp only [oddSplitCase]
        obtain ⟨hsum, hs1ge, hs2ge, hdisj⟩ := scanOddSplit_found r blen blen 1 0 s1 s2 eo
          (le_refl 1) hs
        constructor
        · intro ha hf h2L
          by_cases hL : L = blen
          · subst hL
            rw [updEach_self]
            refine ⟨rfl, ?_, ?_, ?_, ?_⟩
            · simp only [mkEntry_s1]; omega
            · simp only [mkEntry_s2]; omega
            · simp only [mkEntry_s1, mkEntry_s2]; omega
            · rcases hdisj with ⟨heo, ha1, ha2⟩ | ⟨heo, ha1, ha2⟩
              · subst heo
                refine Or.inr ⟨rfl, Or.inr ?_, Or.inr ?_⟩
                · rw [mkEntry_s1, updEach_ne r L _ s1 (by omega)]; exact ha1
                · rw [mkEntry_s2, updEach_ne r L _ s2 (by omega)]; exact ha2
              · subst heo
                refine Or.inl ⟨rfl, by omega, ?_, Or.inr ?_⟩
                · rw [mkEntry_s1]; exact ha1
                · rw [mkEntry_s2, updEach_ne r L _ s2 (by omega)]; exact ha2
          · rw [updEach_ne r blen _ L hL] at ha
            exact absurd ha hf
        · exact fun ha hf => absurd ha hf
      | fb a =>
        simp only [oddSplitCase]
        have hodd : blen % 2 = 1 := by omega
        split_ifs with hA hM4
        · -- Each(4m+1) = Even(2m) + Each(2m+1)
          have hge5 : 5 ≤ blen := by omega
          have hc1 : (1:ℕ) ≤ blen / 2 := by omega
          have hcf1 : blen / 2 ≤ fuel := by omega
          have hcp1 : (true : Bool) = true → 2 ≤ blen / 2 ∧ (blen / 2) % 2 = 0 :=
            fun _ => by omega
          have hc2 : (1:ℕ) ≤ blen / 2 + 1 := by omega
          have hcf2 : blen / 2 + 1 ≤ fuel := by omega
          constructor
          · intro ha hf h2L
            by_cases hL : L = blen
            · subst hL
              have hn : ((updEach r L (mkEntry (L / 2) (L / 2 + 1) true false)).each L).needed
                  = true := by rw [updEach_self]; rfl
              have hn3 : ((findReq fuel (updEach r L (mkEntry (L / 2) (L / 2 + 1) true false))
                  (L / 2) true).each L).needed = true := by
                rw [(findReq_pres fuel _ (L / 2) true L).1 hn]; exact hn
              rw [(findReq_pres fuel _ (L / 2 + 1) false L).1 hn3,
                (findReq_pres fuel _ (L / 2) true L).1 hn, updEach_self]
              refine ⟨rfl, ?_, ?_, ?_, Or.inl ⟨rfl, hodd, ?_, ?_⟩⟩
              · simp only [mkEntry_s1]; omega
              · simp only [mkEntry_s2]; omega
              · simp only [mkEntry_s1, mkEntry_s2]; omega
              · rw [mkEntry_s1]
                have m1 := findReq_marks_even fuel
                  (updEach r L (mkEntry (L / 2) (L / 2 + 1) true false)) (L / 2)
                  (by omega) (by omega) (by omega)
                exact ((needGe_of_pres (findReq_pres fuel _ (L / 2 + 1) false)) (L / 2)).2 m1
              · rw [mkEntry_s2]
                exact Or.inr (findReq_marks_each fuel _ (L / 2 + 1) (by omega) (by omega))
            · by_cases h3 : ((findReq fuel (updEach r blen (mkEntry (blen / 2) (blen / 2 + 1)
                  true false)) (blen / 2) true).each L).needed = true
              · have hf2 : ¬((updEach r blen (mkEntry (blen / 2) (blen / 2 + 1) true
                    false)).each L).needed = true := by
                  rw [updEach_ne r blen _ L hL]; exact hf
                have hOK := (ih _ (blen / 2) true hc1 hcf1 hcp1 L).1 h3 hf2 h2L
                rw [(findReq_pres fuel _ (blen / 2 + 1) false L).1 h3]
                exact okEachBody_mono
                  (needGe_of_pres (findReq_pres fuel _ (blen / 2 + 1) false)) hOK
              · exact (ih _ (blen / 2 + 1) false hc2 hcf2 (by simp) L).1 ha h3 h2L
          · intro ha hf
            by_cases h3 : ((findReq fuel (updEach r blen (mkEntry (blen / 2) (blen / 2 + 1)
                true false)) (blen / 2) true).even L).needed = true
            · have hOK := (ih _ (blen / 2) true hc1 hcf1 hcp1 L).2 h3 hf
              rw [(findReq_pres fuel _ (blen / 2 + 1) false L).2 h3]
              exact evenRuleBody_mono
                (needGe_of_pres (findReq_pres fuel _ (blen / 2 + 1) false)) hOK
            · exact (ih _ (blen / 2 + 1) false hc2 hcf2 (by simp) L).2 ha h3
        · -- Each(4m+3) = Even(2m+2) + Each(2m+1)
          have hm43 : blen % 4 = 3 := by omega
          have hge3 : 3 ≤ blen := by omega
          have hc1 : (1:ℕ) ≤ blen / 2 + 1 := by omega
          have hcf1 : blen / 2 + 1 ≤ fuel := by omega
          have hcp1 : (true : Bool) = true → 2 ≤ blen / 2 + 1 ∧ (blen / 2 + 1) % 2 = 0 :=
            fun _ => by omega
          have hc2 : (1:ℕ) ≤ blen / 2 := by omega
          have hcf2 : blen / 2 ≤ fuel := by omega
          constructor
          · intro ha hf h2L
            by_cases hL : L = blen
            · subst hL
              have hn : ((updEach r L (mkEntry (L / 2 + 1) (L / 2) true false)).each L).needed
                  = true := by rw [updEach_self]; rfl
              have hn3 : ((findReq fuel (updEach r L (mkEntry (L / 2 + 1) (L / 2) true false))
                  (L / 2 + 1) true).each L).needed = true := by
                rw [(findReq_pres fuel _ (L / 2 + 1) true L).1 hn]; exact hn
              rw [(findReq_pres fuel _ (L / 2) false L).1 hn3,
                (findReq_pres fuel _ (L / 2 + 1) true L).1 hn, updEach_self]
              refine ⟨rfl, ?_, ?_, ?_, Or.inl ⟨rfl, hodd, ?_, ?_⟩⟩
              · simp only [mkEntry_s1]; omega
              · simp only [mkEntry_s2]; omega
              · simp only [mkEntry_s1, mkEntry_s2]; omega
              · rw [mkEntry_s1]
                have m1 := findReq_marks_even fuel
                  (updEach r L (mkEntry (L / 2 + 1) (L / 2) true false)) (L / 2 + 1)
                  (by omega) (by omega) (by omega)
                exact ((needGe_of_pres (findReq_pres fuel _ (L / 2) false)) (L / 2 + 1)).2 m1
              · rw [mkEntry_s2]
                exact Or.inr (findReq_marks_each fuel _ (L / 2) (by omega) (by omega))
            · by_cases h3 : ((findReq fuel (updEach r blen (mkEntry (blen / 2 + 1) (blen / 2)
                  true false)) (blen / 2 + 1) true).each L).needed = true
              · have hf2 : ¬((updEach r blen (mkEntry (blen / 2 + 1) (blen / 2) true
                    false)).each L).needed = true := by
                  rw [updEach_ne r blen _ L hL]; exact hf
                have hOK := (ih _ (blen / 2 + 1) true hc1 hcf1 hcp1 L).1 h3 hf2 h2L
                rw [(findReq_pres fuel _ (blen / 2) false L).1 h3]
                exact okEachBody_mono
                  (needGe_of_pres (findReq_pres fuel _ (blen / 2) false)) hOK
              · exact (ih _ (blen / 2) false hc2 hcf2 (by simp) L).1 ha h3 h2L
          · intro ha hf
            by_cases h3 : ((findReq fuel (updEach r blen (mkEntry (blen / 2 + 1) (blen / 2)
                true false)) (blen / 2 + 1) true).even L).needed = true
            · have hOK := (ih _ (blen / 2 + 1) true hc1 hcf1 hcp1 L).2 h3 hf
              rw [(findReq_pres fuel _ (blen / 2) false L).2 h3]
              exact evenRuleBody_mono
                (needGe_of_pres (findReq_pres fuel _ (blen / 2) false)) hOK
            · exact (ih _ (blen / 2) false hc2 hcf2 (by simp) L).2 ha h3
        · -- split off an existing Each(any)
          have hfb := scanOddSplit_fb r blen blen 1 0 a (le_refl 1) (Or.inl rfl) hs
          rcases hfb with hz | ⟨haN, haGe, haLt⟩
          · exact absurd hz hA
          constructor
          · intro ha2 hf h2L
            by_cases hL : L = blen
            · subst hL
              have hn : ((updEach r L (mkEntry a (L - a) false false)).each L).needed = true := by
                rw [updEach_self]; rfl
              rw [(findReq_pres fuel _ (L - a) false L).1 hn, updEach_self]
              refine ⟨rfl, ?_, ?_, ?_, Or.inr ⟨rfl, Or.inr ?_, Or.inr ?_⟩⟩
              · simp only [mkEntry_s1]; omega
              · simp only [mkEntry_s2]; omega
              · simp only [mkEntry_s1, mkEntry_s2]; omega
              · rw [mkEntry_s1]
                exact needed_after_each fuel _ _ _
                  (by rw [updEach_ne r L _ a (by omega)]; exact haN)
              · rw [mkEntry_s2]
                exact findReq_marks_each fuel _ (L - a) (by omega) (by omega)
            · have hf2 : ¬((updEach r blen (mkEntry a (blen - a) false false)).each L).needed
                  = true := by rw [updEach_ne r blen _ L hL]; exact hf
              exact (ih _ (blen - a) false (by omega) (by omega) (by simp) L).1 ha2 hf2 h2L
          · intro ha2 hf
            exact (ih _ (blen - a) false (by omega) (by omega) (by simp) L).2 ha2 hf

theorem valid_findReq (fuel : ℕ) (r : MMReq) (blen : ℕ) (isEv : Bool)
    (h1 : 1 ≤ blen) (h2 : blen ≤ fuel) (hEv : isEv = true → 2 ≤ blen ∧ blen % 2 = 0)
    (hv : MMValid r) : MMValid (findReq fuel r blen isEv) := by
  intro L
  constructor
  · intro ha h2L
    by_cases hOld : (r.each L).needed = true
    · have hEq := (findReq_pres fuel r blen isEv L).1 hOld
      rw [hEq]
      exact okEachBody_mono (needGe_of_pres (findReq_pres fuel r blen isEv))
        ((hv L).1 hOld h2L)
    · exact (findReq_new_ok fuel r blen isEv h1 h2 hEv L).1 ha hOld h2L
  · intro ha
    by_cases hOld : (r.even L).needed = true
    · have hEq := (findReq_pres fuel r blen isEv L).2 hOld
      rw [hEq]
      exact evenRuleBody_mono (needGe_of_pres (findReq_pres fuel r blen isEv))
        ((hv L).2 hOld)
    · exact (findReq_new_ok fuel r blen isEv h1 h2 hEv L).2 ha hOld

theorem valid_emptyReq : MMValid emptyReq := by
  intro L
  constructor
  · intro ha
    simp [emptyReq, emptyEntry] at ha
  · intro ha
    simp [emptyReq, emptyEntry] at ha

theorem valid_fold (lst : List ℕ) : ∀ r : MMReq, MMValid r →
    MMValid (lst.foldl (fun r l => findReq l r l false) r) := by
  induction lst with
  | nil => intro r hv; exact hv
  | cons a t ih =>
    intro r hv
    refine ih (findReq a r a false) ?_
    by_cases ha : a = 0
    · subst ha; exact hv
    · exact valid_findReq a r a false (by omega) (le_refl a) (by simp) hv

/-- The plan produced from any length set is well-formed. -/
theorem valid_planSet (lens : List ℕ) : MMValid (planSet lens) :=
  valid_fold _ emptyReq valid_emptyReq

theorem pres_fold (lst : List ℕ) : ∀ r : MMReq,
    Pres r (lst.foldl (fun r l => findReq l r l false) r) := by
  induction lst with
  | nil => intro r; exact presRefl r
  | cons a t ih =>
    intro r
    exact presTrans (findReq_pres a r a false) (ih (findReq a r a false))

theorem mem_insSorted (a x : ℕ) : ∀ l : List ℕ, x ∈ insSorted a l ↔ x = a ∨ x ∈ l := by
  intro l
  induction l with
  | nil => simp [insSorted]
  | cons b t ih =>
    simp only [insSorted]
    split_ifs with hab
    · simp [List.mem_cons]
    · simp only [List.mem_cons, ih]
      tauto

theorem mem_sortLens (x : ℕ) : ∀ l : List ℕ, x ∈ sortLens l ↔ x ∈ l := by
  intro l
  induction l with
  | nil => simp [sortLens]
  | cons a t ih =>
    show x ∈ insSorted a (sortLens t) ↔ _
    rw [mem_insSorted, ih]
    simp [List.mem_cons]

theorem mem_dedupAdj (x : ℕ) : ∀ l : List ℕ, x ∈ dedupAdj l ↔ x ∈ l := by
  intro l
  induction l with
  | nil => simp [dedupAdj]
  | cons a t ih =>
    cases t with
    | nil => simp [dedupAdj]
    | cons b t2 =>
      show x ∈ (if a = b then dedupAdj (b :: t2) else a :: dedupAdj (b :: t2)) ↔ _
      split_ifs with hab
      · rw [ih]
        subst hab
        simp [List.mem_cons]
      · simp only [List.mem_cons]
        rw [ih]
        simp [List.mem_cons]

theorem marks_fold (lst : List ℕ) : ∀ (r : MMReq) (l : ℕ), l ∈ lst → 1 ≤ l →
    (((lst.foldl (fun r l => findReq l r l false) r)).each l).needed = true := by
  induction lst with
  | nil => intro r l hmem; cases hmem
  | cons a t ih =>
    intro r l hmem h1
    rcases List.mem_cons.1 hmem with h | h
    · subst h
      have hm := findReq_marks_each l r l h1 (le_refl l)
      exact (needGe_of_pres (pres_fold t (findReq l r l false)) l).1 hm
    · exact ih (findReq a r a false) l h h1

/-- Every requested block length is marked needed in the `each` table of the
produced plan. -/
theorem planSet_marks (lens : List ℕ) (l : ℕ) (hmem : l ∈ lens) (h1 : 1 ≤ l) :
    ((planSet lens).each l).needed = true := by
  refine marks_fold _ emptyReq l ?_ h1
  rw [mem_dedupAdj, mem_sortLens]
  exact hmem

/-- In a well-formed plan every needed even-table length is even and at
least 2. -/
theorem evenNeeded_facts {r : MMReq} (hv : MMValid r) {L : ℕ} (h : EvenNeeded r L) :
    L % 2 = 0 ∧ 2 ≤ L := by
  rcases (hv L).2 h with h1 | ⟨h1, h2, _⟩ | ⟨h1, h2, _⟩
  · omega
  · omega
  · omega

/-! ### Row precompute engine correctness -/

theorem bufB_one (cmb : ℚ → ℚ → ℚ) (r : MMReq) (x : ℕ → ℚ) :
    ∀ (fuel i : ℕ), bufB cmb r x fuel false 1 i = x i := by
  intro fuel i
  cases fuel with
  | zero => rfl
  | succ f => simp [bufB]

theorem bufB_correct (cmb : ℚ → ℚ → ℚ)
    (hassoc : ∀ a b c, cmb (cmb a b) c = cmb a (cmb b c))
    (hcomm : ∀ a b, cmb a b = cmb b a)
    (r : MMReq) (hv : MMValid r) (x : ℕ → ℚ) :
    ∀ (fuel L i : ℕ), L ≤ fuel →
      ((EachNeeded r L → 1 ≤ L → bufB cmb r x fuel false L i = windowFold cmb x (L - 1) i) ∧
       (EvenNeeded r L → i % 2 = 0 → bufB cmb r x fuel true L i = windowFold cmb x (L - 1) i)) := by
  intro fuel
  induction fuel with
  | zero =>
    intro L i hL
    constructor
    · intro _ h1; omega
    · intro hE _
      have := evenNeeded_facts hv hE
      omega
  | succ fuel ih =>
    intro L i hL
    constructor
    · intro hN h1
      by_cases hL1 : L = 1
      · subst hL1
        rw [bufB_one]
        rfl
      · have hNd : (r.each L).needed = true := hN.resolve_left hL1
        obtain ⟨hee, hs1, hs2, hsum, hcase⟩ := (hv L).1 hNd (by omega)
        simp only [bufB]
        rw [if_neg (show ¬ L ≤ 1 by omega)]
        rcases hcase with ⟨heo, hoddL, hEvS1, hEaS2⟩ | ⟨heo, hEaS1, hEaS2⟩
        · -- even/odd interleave composition
          rw [if_pos heo]
          have hS1 := evenNeeded_facts hv hEvS1
          have hs2odd : (r.each L).sublen2 % 2 = 1 := by omega
          by_cases hpar : i % 2 = 0
          · rw [if_pos hpar]
            have e1 := (ih (r.each L).sublen1 i (by omega)).2 hEvS1 hpar
            have e2 := (ih (r.each L).sublen2 (i + (r.each L).sublen1)
              (by omega)).1 hEaS2 (by omega)
            rw [e1, e2]
            have hsplit := windowFold_split cmb hassoc x
              ((r.each L).sublen1 - 1) ((r.each L).sublen2 - 1) i
            rw [show (r.each L).sublen1 - 1 + ((r.each L).sublen2 - 1) + 1 = L - 1 by omega,
              show i + ((r.each L).sublen1 - 1) + 1 = i + (r.each L).sublen1 by omega] at hsplit
            rw [hsplit]
          · rw [if_neg hpar]
            have e1 := (ih (r.each L).sublen1 (i + (r.each L).sublen2)
              (by omega)).2 hEvS1 (by omega)
            have e2 := (ih (r.each L).sublen2 i (by omega)).1 hEaS2 (by omega)
            rw [e1, e2, hcomm]
            have hsplit := windowFold_split cmb hassoc x
              ((r.each L).sublen2 - 1) ((r.each L).sublen1 - 1) i
            rw [show (r.each L).sublen2 - 1 + ((r.each L).sublen1 - 1) + 1 = L - 1 by omega,
              show i + ((r.each L).sublen2 - 1) + 1 = i + (r.each L).sublen2 by omega] at hsplit
            rw [hsplit]
        · -- each + each composition
          rw [if_neg (by simp [heo])]
          have e1 := (ih (r.each L).sublen1 i (by omega)).1 hEaS1 (by omega)
          have e2 := (ih (r.each L).sublen2 (i + (r.each L).sublen1)
            (by omega)).1 hEaS2 (by omega)
          rw [e1, e2]
          have hsplit := windowFold_split cmb hassoc x
            ((r.each L).sublen1 - 1) ((r.each L).sublen2 - 1) i
          rw [show (r.each L).sublen1 - 1 + ((r.each L).sublen2 - 1) + 1 = L - 1 by omega,
            show i + ((r.each L).sublen1 - 1) + 1 = i + (r.each L).sublen1 by omega] at hsplit
          rw [hsplit]
    · intro hE hpar
      have hfacts := evenNeeded_facts hv hE
      simp only [bufB]
      rcases (hv L).2 hE with ⟨hL2, hsub1, hsub2, hee, heo⟩ |
        ⟨hmod4, hge4, hsub1, hsub2, hee, heo, hsubN⟩ |
        ⟨hmod4, hge6, hsub1, hsub2, hee, heo, hn1, hn2⟩
      · -- Even(2) from the raw row
        rw [if_neg (by simp [hee]), hsub1, bufB_one, bufB_one]
        subst hL2
        rfl
      · -- Even(4m) = Even(2m) + Even(2m)
        rw [if_pos hee, hsub1, hsub2]
        have e1 := (ih (L / 2) i (by omega)).2 (hsub1 ▸ hsubN) hpar
        have e2 := (ih (L / 2) (i + L / 2) (by omega)).2 (hsub1 ▸ hsubN) (by omega)
        rw [e1, e2]
        have hsplit := windowFold_split cmb hassoc x (L / 2 - 1) (L / 2 - 1) i
        rw [show L / 2 - 1 + (L / 2 - 1) + 1 = L - 1 by omega,
          show i + (L / 2 - 1) + 1 = i + L / 2 by omega] at hsplit
        rw [hsplit]
      · -- Even(4m+2) = Even(2m) + Even(2m+2)
        rw [if_pos hee, hsub1, hsub2]
        have e1 := (ih (L / 2 - 1) i (by omega)).2 hn1 hpar
        have e2 := (ih (L / 2 + 1) (i + (L / 2 - 1)) (by omega)).2 hn2 (by omega)
        rw [e1, e2]
        have hsplit := windowFold_split cmb hassoc x (L / 2 - 1 - 1) (L / 2 + 1 - 1) i
        rw [show L / 2 - 1 - 1 + (L / 2 + 1 - 1) + 1 = L - 1 by omega,
          show i + (L / 2 - 1 - 1) + 1 = i + (L / 2 - 1) by omega] at hsplit
        rw [hsplit]

theorem fillEach_min_ok (r : MMReq) (hv : MMValid r) (x : ℕ → ℚ) (L i : ℕ)
    (hN : EachNeeded r L) (h1 : 1 ≤ L) :
    fillEach cMin r x L i = windowFold cMin x (L - 1) i :=
  (bufB_correct cMin cMin_assoc cMin_comm r hv x L L i (le_refl L)).1 hN h1

theorem fillEach_max_ok (r : MMReq) (hv : MMValid r) (x : ℕ → ℚ) (L i : ℕ)
    (hN : EachNeeded r L) (h1 : 1 ≤ L) :
    fillEach cMax r x L i = windowFold cMax x (L - 1) i :=
  (bufB_correct cMax cMax_assoc cMax_comm r hv x L L i (le_refl L)).1 hN h1

theorem fillEven_min_ok (r : MMReq) (hv : MMValid r) (x : ℕ → ℚ) (L i : ℕ)
    (hN : EvenNeeded r L) (hpar : i % 2 = 0) :
    fillEven cMin r x L i = windowFold cMin x (L - 1) i :=
  (bufB_correct cMin cMin_assoc cMin_comm r hv x L L i (le_refl L)).2 hN hpar

theorem fillEven_max_ok (r : MMReq) (hv : MMValid r) (x : ℕ → ℚ) (L i : ℕ)
    (hN : EvenNeeded r L) (hpar : i % 2 = 0) :
    fillEven cMax r x L i = windowFold cMax x (L - 1) i :=
  (bufB_correct cMax cMax_assoc cMax_comm r hv x L L i (le_refl L)).2 hN hpar

/-- C1: after the row precompute engine fills the buffers for one extended row
under a plan produced from a set of positive block lengths, for every length
`L` marked needed in the `each` table and every valid start index `i`
(`i + L ≤ rowlen`), the buffer entry `each[L][i]` equals the exact minimum
(for the min fill) or maximum (for the max fill) of the row values at indices
`i .. i+L-1`; likewise every even-table entry `even[L][i]` at even-aligned `i`
equals the exact extremum of the `L` values starting at `i`. -/
theorem row_fill_matches_window_extrema (lens : List ℕ) (hlens : ∀ l ∈ lens, 1 ≤ l)
    (x : ℕ → ℚ) (rowlen L i : ℕ) (hL : 1 ≤ L) (hrange : i + L ≤ rowlen) :
    (((planSet lens).each L).needed = true →
      fillEach cMin (planSet lens) x L i = windowFold cMin x (L - 1) i ∧
      fillEach cMax (planSet lens) x L i = windowFold cMax x (L - 1) i) ∧
    (((planSet lens).even L).needed = true → i % 2 = 0 →
      fillEven cMin (planSet lens) x L i = windowFold cMin x (L - 1) i ∧
      fillEven cMax (planSet lens) x L i = windowFold cMax x (L - 1) i) := by
  have hv := valid_planSet lens
  constructor
  · intro hN
    exact ⟨fillEach_min_ok _ hv x L i (Or.inr hN) hL, fillEach_max_ok _ hv x L i (Or.inr hN) hL⟩
  · intro hN hpar
    exact ⟨fillEven_min_ok _ hv x L i hN hpar, fillEven_max_ok _ hv x L i hN hpar⟩

/-- Witness for C1 at the concrete row `[3, 1, 4, 1, 5]` with the plan for
block length 3, window length 3 at start index 1. -/
theorem row_fill_matches_window_extrema_witness :
    ((∀ l ∈ [3], 1 ≤ l) ∧ 1 ≤ 3 ∧ 1 + 3 ≤ 5 ∧ ((planSet [3]).each 3).needed = true) ∧
    fillEach cMin (planSet [3]) wRow 3 1 = windowFold cMin wRow 2 1 ∧
    fillEach cMax (planSet [3]) wRow 3 1 = windowFold cMax wRow 2 1 :=
  ⟨⟨by decide, by decide, by decide, by decide⟩,
   (row_fill_matches_window_extrema [3] (by decide) wRow 5 3 1 (by decide) (by decide)).1
     (by decide)⟩

/-- Counterexample to C5 as stated: for the plan of block-length set `{13}`,
`Even(6)` (the `4m+2` case with `m = 1`) is needed, and its entry records the
sub-lengths `(2, 4)` — `Even(2)` first, then `Even(4)` — not `(4, 2)` as the
rule `Even(4m+2) = Even(2m+2) + Even(2m)` read in order would state. -/
theorem even_rule_order_counterexample :
    ((planSet [13]).even 6).needed = true ∧
    ((planSet [13]).even 6).sublen1 = 2 ∧ ((planSet [13]).even 6).sublen2 = 4 ∧
    ¬(((planSet [13]).even 6).sublen1 = 4 ∧ ((planSet [13]).even 6).sublen2 = 2) := by
  decide

/-- C5 amended: whenever the planner marks an even-aligned length as needed,
the entry records `Even(2)` with sub-lengths `(1, 1)` (two raw samples),
`Even(4m)` with `(2m, 2m)`, and `Even(4m+2)` with `(2m, 2m+2)` — the smaller
sub-length first, i.e. `Even(4m+2) = Even(2m) + Even(2m+2)`; and for every
composed entry in either table the two recorded sub-lengths sum to the
entry's own length. -/
theorem planner_even_rules_and_sublen_sums (lens : List ℕ) (L : ℕ) :
    (((planSet lens).even L).needed = true →
      ((L = 2 ∧ ((planSet lens).even L).sublen1 = 1 ∧ ((planSet lens).even L).sublen2 = 1) ∨
       (L % 4 = 0 ∧ 4 ≤ L ∧ ((planSet lens).even L).sublen1 = L / 2 ∧
         ((planSet lens).even L).sublen2 = L / 2) ∨
       (L % 4 = 2 ∧ 6 ≤ L ∧ ((planSet lens).even L).sublen1 = L / 2 - 1 ∧
         ((planSet lens).even L).sublen2 = L / 2 + 1)) ∧
      ((planSet lens).even L).sublen1 + ((planSet lens).even L).sublen2 = L) ∧
    (((planSet lens).each L).needed = true → 2 ≤ L →
      ((planSet lens).each L).sublen1 + ((planSet lens).each L).sublen2 = L) := by
  have hv := valid_planSet lens
  constructor
  · intro hN
    rcases (hv L).2 hN with ⟨h1, h2, h3, _⟩ | ⟨h1, h2, h3, h4, _⟩ | ⟨h1, h2, h3, h4, _⟩
    · exact ⟨Or.inl ⟨h1, h2, h3⟩, by omega⟩
    · exact ⟨Or.inr (Or.inl ⟨h1, h2, h3, h4⟩), by omega⟩
    · exact ⟨Or.inr (Or.inr ⟨h1, h2, h3, h4⟩), by omega⟩
  · intro hN h2L
    obtain ⟨_, _, _, hsum, _⟩ := (hv L).1 hN h2L
    exact hsum

/-- Witness for the amended C5 at the concrete plan for `{13}`: `Even(6)` is
needed and its sub-lengths sum to 6; `Each(13)` is composed with
sub-lengths summing to 13. -/
theorem planner_even_rules_and_sublen_sums_witness :
    (((planSet [13]).even 6).needed = true ∧
      ((planSet [13]).even 6).sublen1 + ((planSet [13]).even 6).sublen2 = 6) ∧
    (((planSet [13]).each 13).needed = true ∧ 2 ≤ 13 ∧
      ((planSet [13]).each 13).sublen1 + ((planSet [13]).each 13).sublen2 = 13) :=
  ⟨⟨by decide, ((planner_even_rules_and_sublen_sums [13] 6).1 (by decide)).2⟩,
   ⟨by decide, by decide,
     (planner_even_rules_and_sublen_sums [13] 13).2 (by decide) (by decide)⟩⟩

/-! ### Run-length encoding lemmas -/

theorem scanRuns_sound (f : ℕ → Bool) (xres : ℕ) :
    ∀ (k j l : ℕ), j + l ≤ xres → (∀ t, j ≤ t → t < j + l → f t = true) →
      ∀ c len, (c, len) ∈ scanRuns f xres k j l →
        1 ≤ len ∧ j ≤ c ∧ c + len ≤ xres ∧ ∀ t, c ≤ t → t < c + len → f t = true := by
  intro k
  induction k with
  | zero =>
    intro j l hjl hcells c len hmem
    simp only [scanRuns] at hmem
    split_ifs at hmem with hl
    · simp at hmem
    · rw [List.mem_singleton, Prod.mk.injEq] at hmem
      obtain ⟨h1, h2⟩ := hmem
      subst h1; subst h2
      exact ⟨by omega, le_refl _, hjl, hcells⟩
  | succ k ih =>
    intro j l hjl hcells c len hmem
    simp only [scanRuns] at hmem
    split_ifs at hmem with hin hf hl0
    · refine ih j (l + 1) (by omega) ?_ c len hmem
      intro t h1 h2
      rcases Nat.lt_or_ge t (j + l) with h | h
      · exact hcells t h1 h
      · have ht : t = j + l := by omega
        subst ht; exact hf
    · obtain ⟨a1, a2, a3, a4⟩ := ih (j + 1) 0 (by omega)
        (fun t h1 h2 => absurd h2 (by omega)) c len hmem
      exact ⟨a1, by omega, a3, a4⟩
    · rcases List.mem_cons.1 hmem with h | h
      · rw [Prod.mk.injEq] at h
        obtain ⟨h1, h2⟩ := h
        subst h1; subst h2
        exact ⟨by omega, le_refl _, by omega, hcells⟩
      · obtain ⟨a1, a2, a3, a4⟩ := ih (j + l + 1) 0 (by omega)
          (fun t h1 h2 => absurd h2 (by omega)) c len h
        exact ⟨a1, by omega, a3, a4⟩
    · simp at hmem
    · rw [List.mem_singleton, Prod.mk.injEq] at hmem
      obtain ⟨h1, h2⟩ := hmem
      subst h1; subst h2
      exact ⟨by omega, le_refl _, hjl, hcells⟩

theorem scanRuns_complete (f : ℕ → Bool) (xres : ℕ) :
    ∀ (k j l p : ℕ), xres ≤ j + l + k → j + l ≤ xres →
      (∀ t, j ≤ t → t < j + l → f t = true) →
      j ≤ p → p < xres → f p = true →
      ∃ c len, (c, len) ∈ scanRuns f xres k j l ∧ c ≤ p ∧ p < c + len := by
  intro k
  induction k with
  | zero =>
    intro j l p hk hjl hcells hjp hpx hfp
    have hl : ¬ l = 0 := by omega
    refine ⟨j, l, ?_, hjp, by omega⟩
    simp [scanRuns, hl]
  | succ k ih =>
    intro j l p hk hjl hcells hjp hpx hfp
    simp only [scanRuns]
    split_ifs with hin hf hl0
    · refine ih j (l + 1) p (by omega) (by omega) ?_ hjp hpx hfp
      intro t h1 h2
      rcases Nat.lt_or_ge t (j + l) with h | h
      · exact hcells t h1 h
      · have ht : t = j + l := by omega
        subst ht; exact hf
    · subst hl0
      have hne : ¬ p = j := by
        intro hh
        subst hh
        simp only [Nat.add_zero] at hf
        exact hf hfp
      exact ih (j + 1) 0 p (by omega) (by omega)
        (fun t h1 h2 => absurd h2 (by omega)) (by omega) hpx hfp
    · rcases Nat.lt_or_ge p (j + l) with h | h
      · exact ⟨j, l, List.mem_cons_self _ _, hjp, h⟩
      · have hne : ¬ p = j + l := by
          intro hh
          subst hh
          exact hf hfp
        obtain ⟨c, len, hm, h1, h2⟩ := ih (j + l + 1) 0 p (by omega) (by omega)
          (fun t a b => absurd b (by omega)) (by omega) hpx hfp
        exact ⟨c, len, List.mem_cons_of_mem _ hm, h1, h2⟩
    · exfalso; omega
    · refine ⟨j, l, ?_, hjp, by omega⟩
      simp

theorem encodeRLE_mem (K : ℕ → ℕ → Bool) (kx ky : ℕ) {s : ℕ × ℕ × ℕ}
    (h : s ∈ encodeRLE K kx ky) :
    s.1 < ky ∧ 1 ≤ s.2.2 ∧ s.2.1 + s.2.2 ≤ kx ∧
      ∀ c, s.2.1 ≤ c → c < s.2.1 + s.2.2 → K s.1 c = true := by
  unfold encodeRLE at h
  rw [List.mem_flatMap] at h
  obtain ⟨r, hr, hs⟩ := h
  rw [List.mem_map] at hs
  obtain ⟨p, hp, hps⟩ := hs
  obtain ⟨c0, len⟩ := p
  subst hps
  rw [List.mem_range] at hr
  obtain ⟨h1, h2, h3, h4⟩ := scanRuns_sound (K r) kx kx 0 0 (by omega)
    (fun t a b => absurd b (by omega)) c0 len hp
  exact ⟨hr, h1, h3, h4⟩

theorem encodeRLE_covers (K : ℕ → ℕ → Bool) (kx ky t c : ℕ)
    (ht : t < ky) (hc : c < kx) (hK : K t c = true) : InSegs (encodeRLE K kx ky) t c := by
  obtain ⟨c0, len, hm, h1, h2⟩ := scanRuns_complete (K t) kx kx 0 0 c (by omega) (by omega)
    (fun u a b => absurd b (by omega)) (by omega) hc hK
  refine ⟨(t, c0, len), ?_, rfl, h1, h2⟩
  unfold encodeRLE
  rw [List.mem_flatMap]
  exact ⟨t, List.mem_range.2 ht, List.mem_map.2 ⟨(c0, len), hm, rfl⟩⟩

theorem inSegs_encode_iff (K : ℕ → ℕ → Bool) (kx ky t c : ℕ) :
    InSegs (encodeRLE K kx ky) t c ↔ t < ky ∧ c < kx ∧ K t c = true := by
  constructor
  · rintro ⟨s, hm, hs1, h1, h2⟩
    obtain ⟨a1, a2, a3, a4⟩ := encodeRLE_mem K kx ky hm
    subst hs1
    exact ⟨a1, by omega, a4 c h1 h2⟩
  · rintro ⟨h1, h2, h3⟩
    exact encodeRLE_covers K kx ky t c h1 h2 h3

theorem mem_insSeg (a x : ℕ × ℕ × ℕ) : ∀ l, x ∈ insSeg a l ↔ x = a ∨ x ∈ l := by
  intro l
  induction l with
  | nil => simp [insSeg]
  | cons b t ih =>
    simp only [insSeg]
    split_ifs with hab
    · simp [List.mem_cons]
    · simp only [List.mem_cons, ih]
      tauto

theorem mem_sortSegs (x : ℕ × ℕ × ℕ) : ∀ l, x ∈ sortSegs l ↔ x ∈ l := by
  intro l
  induction l with
  | nil => simp [sortSegs]
  | cons a t ih =>
    show x ∈ insSeg a (sortSegs t) ↔ _
    rw [mem_insSeg, ih]
    simp [List.mem_cons]

theorem rleFlip_mem {mrle : List (ℕ × ℕ × ℕ)} {kx ky : ℕ} {s : ℕ × ℕ × ℕ}
    (h : s ∈ rleFlip mrle kx ky) :
    ∃ s0 ∈ mrle, s = (ky - 1 - s0.1, kx - s0.2.1 - s0.2.2, s0.2.2) := by
  unfold rleFlip at h
  rw [mem_sortSegs, List.mem_map] at h
  obtain ⟨s0, hm, hs⟩ := h
  exact ⟨s0, hm, hs.symm⟩

theorem length_insSeg (a : ℕ × ℕ × ℕ) : ∀ l, (insSeg a l).length = l.length + 1 := by
  intro l
  induction l with
  | nil => rfl
  | cons b t ih =>
    simp only [insSeg]
    split_ifs with hab
    · simp
    · simp [ih]

theorem length_sortSegs : ∀ l : List (ℕ × ℕ × ℕ), (sortSegs l).length = l.length := by
  intro l
  induction l with
  | nil => rfl
  | cons a t ih =>
    show (insSeg a (sortSegs t)).length = _
    rw [length_insSeg, ih]
    rfl

theorem inSegs_flip_encode (K : ℕ → ℕ → Bool) (kx ky t c : ℕ) (ht : t < ky) (hc : c < kx) :
    InSegs (rleFlip (encodeRLE K kx ky) kx ky) t c ↔ K (ky - 1 - t) (kx - 1 - c) = true := by
  constructor
  · rintro ⟨s, hm, hs1, h1, h2⟩
    obtain ⟨s0, hm0, hs0⟩ := rleFlip_mem hm
    obtain ⟨a1, a2, a3, a4⟩ := encodeRLE_mem K kx ky hm0
    subst hs0
    simp only at hs1 h1 h2
    have e1 : ky - 1 - t = s0.1 := by omega
    have e2 : s0.2.1 ≤ kx - 1 - c ∧ kx - 1 - c < s0.2.1 + s0.2.2 := by omega
    rw [e1]
    exact a4 _ e2.1 e2.2
  · intro hK
    have ht0 : ky - 1 - t < ky := by omega
    have hc0 : kx - 1 - c < kx := by omega
    obtain ⟨s, hm, hs1, h1, h2⟩ := encodeRLE_covers K kx ky _ _ ht0 hc0 hK
    obtain ⟨a1, a2, a3, a4⟩ := encodeRLE_mem K kx ky hm
    refine ⟨(ky - 1 - s.1, kx - s.2.1 - s.2.2, s.2.2), ?_, by simp; omega, by simp; omega,
      by simp; omega⟩
    unfold rleFlip
    rw [mem_sortSegs, List.mem_map]
    exact ⟨s, hm, rfl⟩

/-- C10: encoding a kernel that contains at least one nonzero cell always
yields at least one segment, so the window sweep executor (whose first action
reads the first segment unconditionally) always has a segment to read; and
the reflected encoding is nonempty exactly when the original is. -/
theorem nonempty_kernel_nonempty_rle (K : ℕ → ℕ → Bool) (kx ky : ℕ)
    (h : kernelNonempty K kx ky = true) :
    encodeRLE K kx ky ≠ [] ∧ rleFlip (encodeRLE K kx ky) kx ky ≠ [] := by
  unfold kernelNonempty at h
  rw [List.any_eq_true] at h
  obtain ⟨t, htm, hKt⟩ := h
  rw [List.mem_range] at htm
  have hkx : 0 < kx := by
    by_contra hk
    have : kx = 0 := by omega
    subst this
    simp at htm
  have hrow : t / kx < ky := Nat.div_lt_of_lt_mul (by omega)
  have hcol : t % kx < kx := Nat.mod_lt _ hkx
  obtain ⟨s, hm, _, _, _⟩ := encodeRLE_covers K kx ky (t / kx) (t % kx) hrow hcol hKt
  constructor
  · intro hnil
    rw [hnil] at hm
    cases hm
  · intro hnil
    have hlen := length_sortSegs ((encodeRLE K kx ky).map
      (fun s => (ky - 1 - s.1, kx - s.2.1 - s.2.2, s.2.2)))
    unfold rleFlip at hnil
    rw [hnil] at hlen
    simp only [List.length_nil, List.length_map] at hlen
    have hemp : encodeRLE K kx ky = [] := List.length_eq_zero.1 hlen.symm
    rw [hemp] at hm
    cases hm

/-- Witness for C10 at the concrete all-ones 1-column, 3-row kernel. -/
theorem nonempty_kernel_nonempty_rle_witness :
    kernelNonempty cexKernelCol3 1 3 = true ∧ encodeRLE cexKernelCol3 1 3 ≠ [] :=
  ⟨by decide, (nonempty_kernel_nonempty_rle cexKernelCol3 1 3 (by decide)).1⟩

/-- C7: the border extension amounts are asymmetric exactly as stated: every
minimum (erosion-family) pass extends by `(k-1)/2` before the data and `k/2`
after it, and every maximum (dilation-family) pass extends by `k/2` before
and `(k-1)/2` after, where `k` is the kernel extent in that axis, both
vertically (up/down) and horizontally (left/right); and the executor builds
its rolling buffers with exactly these amounts. -/
theorem border_extension_amounts (kx ky : ℕ) :
    extendAmts false kx ky = ((ky - 1) / 2, ky / 2, (kx - 1) / 2, kx / 2) ∧
    extendAmts true kx ky = (ky / 2, (ky - 1) / 2, kx / 2, (kx - 1) / 2) ∧
    (∀ (d : ℕ → ℕ → ℚ) (xres yres : ℕ) (mrle : List (ℕ × ℕ × ℕ)) (req : MMReq)
      (col row width i j : ℕ),
      minMaxExec d xres yres mrle req false col row width kx ky i j =
        execRow cMin req mrle
          (prowsAt d xres yres col width row ((ky - 1) / 2) (ky / 2) ((kx - 1) / 2) (kx / 2)
            ky i) j ∧
      minMaxExec d xres yres mrle req true col row width kx ky i j =
        execRow cMax req mrle
          (prowsAt d xres yres col width row (ky / 2) ((ky - 1) / 2) (kx / 2) ((kx - 1) / 2)
            ky i) j) :=
  ⟨rfl, rfl, fun _ _ _ _ _ _ _ _ _ _ => ⟨rfl, rfl⟩⟩

/-! ### Border extension characterization -/

theorem rowExtendBorder_clamp (input : ℕ → ℚ) (pos width res el er : ℕ)
    (hb : pos + width ≤ res) (hr : 1 ≤ res) (t : ℕ) (htr : t < el + width + er) :
    rowExtendBorder input pos width res el er t = input (clampI (pos + t) el res) := by
  simp only [rowExtendBorder, clampI]
  split_ifs with h1 h2 <;> congr 1 <;> omega

/-! ### The empty-kernel no-op and the frame effect -/

theorem kernelNonempty_false (K : ℕ → ℕ → Bool) (kx ky : ℕ)
    (hall : ∀ r c, r < ky → c < kx → K r c = false) : kernelNonempty K kx ky = false := by
  unfold kernelNonempty
  rw [List.any_eq_false]
  intro t htm
  rw [List.mem_range] at htm
  have hkx : 0 < kx := by
    by_contra hk
    have : kx = 0 := by omega
    subst this
    simp at htm
  have hrow : t / kx < ky := Nat.div_lt_of_lt_mul (by omega)
  have hcol : t % kx < kx := Nat.mod_lt _ hkx
  rw [hall (t / kx) (t % kx) hrow hcol]
  simp

/-- C8: calling the public min/max filter entry point with a kernel whose
autocropped form has no nonzero cell performs no operation at all: every
pixel of the image keeps its value, for every filter type and region. -/
theorem empty_autocropped_kernel_noop (d : ℕ → ℕ → ℚ) (xres yres : ℕ) (K : ℕ → ℕ → Bool)
    (kxres kyres : ℕ) (ft : MMFilterTy) (col row width height : ℕ)
    (hempty : ∀ r c, r < (autocropSpec K kxres kyres).2.2 →
      c < (autocropSpec K kxres kyres).2.1 → (autocropSpec K kxres kyres).1 r c = false) :
    ∀ r c, filterMinMax d xres yres K kxres kyres ft col row width height r c = some (d r c) := by
  intro r c
  unfold filterMinMax
  have hne := kernelNonempty_false (autocropSpec K kxres kyres).1
    (autocropSpec K kxres kyres).2.1 (autocropSpec K kxres kyres).2.2 hempty
  rw [if_neg (by rw [hne]; exact Bool.false_ne_true)]

/-- Witness for C8 at a concrete all-zero 2x2 kernel over a 1-pixel image. -/
theorem empty_autocropped_kernel_noop_witness :
    filterMinMax cexField1 1 1 cexKernelZero 2 2 MMFilterTy.minimum 0 0 1 1 0 0 =
      some (cexField1 0 0) :=
  empty_autocropped_kernel_noop cexField1 1 1 cexKernelZero 2 2 MMFilterTy.minimum 0 0 1 1
    (fun r c hr _ => absurd hr (Nat.not_lt_zero r)) 0 0

/-- C9: for every operation type, region and kernel, the filter modifies only
image pixels inside the requested region rectangle: every pixel outside it
keeps its prior value, both at the internal entry point and at the public
facade.  (The caller's kernel raster is immutable by construction in this
functional model, matching the C code, which duplicates the kernel before
autocropping and reflects only the derived run-length encoding.) -/
theorem filter_frame_effect (d : ℕ → ℕ → ℚ) (xres yres : ℕ) (K : ℕ → ℕ → Bool)
    (kxres kyres : ℕ) (ft : MMFilterTy) (col row width height r c : ℕ)
    (hout : ¬(row ≤ r ∧ r < row + height ∧ col ≤ c ∧ c < col + width)) :
    filterMinMaxReal d xres yres K kxres kyres ft col row width height r c = some (d r c) ∧
    filterMinMax d xres yres K kxres kyres ft col row width height r c = some (d r c) := by
  have hreal : ∀ (d2 : ℕ → ℕ → ℚ) (x2 y2 : ℕ) (K2 : ℕ → ℕ → Bool) (kx2 ky2 : ℕ),
      filterMinMaxReal d2 x2 y2 K2 kx2 ky2 ft col row width height r c = some (d2 r c) := by
    intro d2 x2 y2 K2 kx2 ky2
    unfold filterMinMaxReal
    split_ifs with hreg
    · cases ft <;> simp only [writeRegion] <;> rw [if_neg hout]
    · rfl
  refine ⟨hreal d xres yres K kxres kyres, ?_⟩
  unfold filterMinMax
  split_ifs with hne
  · exact hreal d xres yres _ _ _
  · rfl

/-- Witness for C9: a pixel left of the region keeps its value. -/
theorem filter_frame_effect_witness :
    ¬((0:ℕ) ≤ 0 ∧ 0 < 0 + 1 ∧ 1 ≤ 0 ∧ 0 < 1 + 2) ∧
    filterMinMaxReal specField 5 1 onesKernel 3 1 MMFilterTy.minimum 1 0 2 1 0 0 =
      some (specField 0 0) :=
  ⟨by decide,
   (filter_frame_effect specField 5 1 onesKernel 3 1 MMFilterTy.minimum 1 0 2 1 0 0
     (by decide)).1⟩

/-! ### Sweep seeding and advance invariants -/

theorem seedDown_ok (d : ℕ → ℕ → ℚ) (xres yres col width row eu ed el er : ℕ)
    (hrow : row < yres) (hcase : row + ed < yres ∨ eu = 0) :
    ∀ n, n ≤ ed + 1 → ∀ t,
      seedDown d xres yres col width row eu ed el er n t =
        if eu ≤ t ∧ t < eu + n then
          some (extRowAt d xres col width el er (clampI (row + t) eu yres))
        else none := by
  intro n
  induction n with
  | zero =>
    intro _ t
    rw [if_neg (by omega)]
    rfl
  | succ n ihn =>
    intro hn t
    have hstep : seedDown d xres yres col width row eu ed el er (n + 1) t =
        (if row + n < yres then
          updP (seedDown d xres yres col width row eu ed el er n) (n + eu)
            (some (extRowAt d xres col width el er (row + n)))
        else
          updP (seedDown d xres yres col width row eu ed el er n) n
            (seedDown d xres yres col width row eu ed el er n (n - 1))) t := rfl
    rw [hstep]
    by_cases hrn : row + n < yres
    · rw [if_pos hrn]
      simp only [updP]
      by_cases ht : t = n + eu
      · subst ht
        rw [if_pos rfl, if_pos (show eu ≤ n + eu ∧ n + eu < eu + (n + 1) by omega)]
        have harg : clampI (row + (n + eu)) eu yres = row + n := by
          simp only [clampI]; omega
        rw [harg]
      · rw [if_neg ht, ihn (by omega) t]
        by_cases hc : eu ≤ t ∧ t < eu + n
        · rw [if_pos hc, if_pos (show eu ≤ t ∧ t < eu + (n + 1) by omega)]
        · rw [if_neg hc, if_neg (show ¬(eu ≤ t ∧ t < eu + (n + 1)) by omega)]
    · rw [if_neg hrn]
      have heu : eu = 0 := by
        rcases hcase with h | h
        · omega
        · exact h
      subst heu
      simp only [updP]
      by_cases ht : t = n
      · have hn1 : 1 ≤ n := by omega
        rw [if_pos ht, ihn (by omega) (n - 1),
          if_pos (show 0 ≤ n - 1 ∧ n - 1 < 0 + n by omega),
          if_pos (show 0 ≤ t ∧ t < 0 + (n + 1) by omega)]
        have harg : clampI (row + (n - 1)) 0 yres = clampI (row + t) 0 yres := by
          simp only [clampI]; omega
        rw [harg]
      · rw [if_neg ht, ihn (by omega) t]
        by_cases hc : 0 ≤ t ∧ t < 0 + n
        · rw [if_pos hc, if_pos (show 0 ≤ t ∧ t < 0 + (n + 1) by omega)]
        · rw [if_neg hc, if_neg (show ¬(0 ≤ t ∧ t < 0 + (n + 1)) by omega)]

theorem seedRows_ok (d : ℕ → ℕ → ℚ) (xres yres col width row eu ed el er kyres : ℕ)
    (hky : eu + ed + 1 = kyres) (hrow : row < yres)
    (hcase : row + ed < yres ∨ eu = 0) :
    ∀ t, t < kyres →
      seedRows d xres yres col width row eu ed el er kyres t =
        some (extRowAt d xres col width el er (clampI (row + t) eu yres)) := by
  have hB : ∀ m, m ≤ eu → ∀ t,
      iterN (fun P i0 =>
        if i0 + 1 ≤ row then
          updP P (eu - (i0 + 1)) (some (extRowAt d xres col width el er (row - (i0 + 1))))
        else updP P (eu - (i0 + 1)) (P ((eu - (i0 + 1) + 1) % kyres)))
        (seedDown d xres yres col width row eu ed el er (ed + 1)) m t =
      if eu - m ≤ t ∧ t < eu + (ed + 1) then
        some (extRowAt d xres col width el er (clampI (row + t) eu yres))
      else none := by
    intro m
    induction m with
    | zero =>
      intro _ t
      show seedDown d xres yres col width row eu ed el er (ed + 1) t = _
      rw [seedDown_ok d xres yres col width row eu ed el er hrow hcase (ed + 1) (le_refl _) t]
      by_cases hc : eu ≤ t ∧ t < eu + (ed + 1)
      · rw [if_pos hc, if_pos (show eu - 0 ≤ t ∧ t < eu + (ed + 1) by omega)]
      · rw [if_neg hc, if_neg (show ¬(eu - 0 ≤ t ∧ t < eu + (ed + 1)) by omega)]
    | succ m ihm =>
      intro hm t
      simp only [iterN]
      by_cases hir : m + 1 ≤ row
      · rw [if_pos hir]
        simp only [updP]
        by_cases ht : t = eu - (m + 1)
        · rw [if_pos ht, if_pos (show eu - (m + 1) ≤ t ∧ t < eu + (ed + 1) by omega)]
          have harg : clampI (row + t) eu yres = row - (m + 1) := by
            simp only [clampI]; omega
          rw [harg]
        · rw [if_neg ht, ihm (by omega) t]
          by_cases hc : eu - m ≤ t ∧ t < eu + (ed + 1)
          · rw [if_pos hc, if_pos (show eu - (m + 1) ≤ t ∧ t < eu + (ed + 1) by omega)]
          · rw [if_neg hc, if_neg (show ¬(eu - (m + 1) ≤ t ∧ t < eu + (ed + 1)) by omega)]
      · rw [if_neg hir]
        simp only [updP]
        by_cases ht : t = eu - (m + 1)
        · have hmod : (eu - (m + 1) + 1) % kyres = eu - (m + 1) + 1 :=
            Nat.mod_eq_of_lt (by omega)
          rw [if_pos ht, hmod, ihm (by omega) (eu - (m + 1) + 1),
            if_pos (show eu - m ≤ eu - (m + 1) + 1 ∧ eu - (m + 1) + 1 < eu + (ed + 1) by omega),
            if_pos (show eu - (m + 1) ≤ t ∧ t < eu + (ed + 1) by omega)]
          have harg : clampI (row + (eu - (m + 1) + 1)) eu yres = clampI (row + t) eu yres := by
            simp only [clampI]; omega
          rw [harg]
        · rw [if_neg ht, ihm (by omega) t]
          by_cases hc : eu - m ≤ t ∧ t < eu + (ed + 1)
          · rw [if_pos hc, if_pos (show eu - (m + 1) ≤ t ∧ t < eu + (ed + 1) by omega)]
          · rw [if_neg hc, if_neg (show ¬(eu - (m + 1) ≤ t ∧ t < eu + (ed + 1)) by omega)]
  intro t ht
  have hfin := hB eu (le_refl eu) t
  rw [if_pos (by omega)] at hfin
  exact hfin

theorem advanceStep_ok (d : ℕ → ℕ → ℚ) (xres yres col width row eu ed el er kyres : ℕ)
    (hky : eu + ed + 1 = kyres) (P : ℕ → Option (ℕ → ℚ)) (k : ℕ)
    (hP : ∀ t, t < kyres →
      P t = some (extRowAt d xres col width el er (clampI (row + k + t) eu yres)))
    (hsafe : kyres = 1 → row + k + 1 < yres) :
    ∀ t, t < kyres →
      advanceStep d xres yres col width row ed el er kyres P (k + 1) t =
        some (extRowAt d xres col width el er (clampI (row + (k + 1) + t) eu yres)) := by
  intro t ht
  have hrot : ∀ u, (fun u2 => if u2 < kyres - 1 then P (u2 + 1) else P 0) u =
      if u < kyres - 1 then P (u + 1) else P 0 := fun u => rfl
  show (if row + (k + 1) + ed < yres then
      updP (fun u => if u < kyres - 1 then P (u + 1) else P 0) (kyres - 1)
        (some (extRowAt d xres col width el er (row + (k + 1) + ed)))
    else
      updP (fun u => if u < kyres - 1 then P (u + 1) else P 0) (kyres - 1)
        ((fun u => if u < kyres - 1 then P (u + 1) else P 0) (kyres - 2))) t = _
  by_cases hin : row + (k + 1) + ed < yres
  · rw [if_pos hin]
    simp only [updP]
    by_cases htt : t = kyres - 1
    · rw [if_pos htt]
      have harg : clampI (row + (k + 1) + t) eu yres = row + (k + 1) + ed := by
        simp only [clampI]; omega
      rw [harg]
    · rw [if_neg htt, if_pos (show t < kyres - 1 by omega), hP (t + 1) (by omega)]
      have harg : clampI (row + k + (t + 1)) eu yres = clampI (row + (k + 1) + t) eu yres := by
        simp only [clampI]; omega
      rw [harg]
  · rw [if_neg hin]
    have hky2 : 2 ≤ kyres := by
      by_contra hk
      have h1 : kyres = 1 := by omega
      exact hin (by have := hsafe h1; omega)
    simp only [updP]
    by_cases htt : t = kyres - 1
    · rw [if_pos htt, if_pos (show kyres - 2 < kyres - 1 by omega),
        hP (kyres - 2 + 1) (by omega)]
      have harg : clampI (row + k + (kyres - 2 + 1)) eu yres =
          clampI (row + (k + 1) + t) eu yres := by
        simp only [clampI]; omega
      rw [harg]
    · rw [if_neg htt, if_pos (show t < kyres - 1 by omega), hP (t + 1) (by omega)]
      have harg : clampI (row + k + (t + 1)) eu yres = clampI (row + (k + 1) + t) eu yres := by
        simp only [clampI]; omega
      rw [harg]

theorem prowsAt_ok (d : ℕ → ℕ → ℚ) (xres yres col width row eu ed el er kyres height : ℕ)
    (hky : eu + ed + 1 = kyres) (hrow : row < yres) (hheight : row + height ≤ yres)
    (hcase : row + ed < yres ∨ eu = 0) :
    ∀ i, i < height → ∀ t, t < kyres →
      prowsAt d xres yres col width row eu ed el er kyres i t =
        some (extRowAt d xres col width el er (clampI (row + i + t) eu yres)) := by
  intro i
  induction i with
  | zero =>
    intro _ t ht
    show seedRows d xres yres col width row eu ed el er kyres t = _
    rw [seedRows_ok d xres yres col width row eu ed el er kyres hky hrow hcase t ht]
    have harg : clampI (row + t) eu yres = clampI (row + 0 + t) eu yres := by
      simp only [clampI]; omega
    rw [harg]
  | succ k ihk =>
    intro hi t ht
    show advanceStep d xres yres col width row ed el er kyres _ (k + 1) t = _
    exact advanceStep_ok d xres yres col width row eu ed el er kyres hky _ k
      (fun u hu => ihk (by omega) u hu) (fun _ => by omega) t ht

/-! ### Executor characterization -/

theorem foldl_cMin_le_init : ∀ (l : List ℚ) (v : ℚ), l.foldl cMin v ≤ v := by
  intro l
  induction l with
  | nil => intro v; exact le_refl v
  | cons a t ih =>
    intro v
    exact le_trans (ih (cMin v a)) (cMin_le_left v a)

theorem foldl_cMin_le_mem : ∀ (l : List ℚ) (v a : ℚ), a ∈ l → l.foldl cMin v ≤ a := by
  intro l
  induction l with
  | nil => intro v a ha; cases ha
  | cons x t ih =>
    intro v a ha
    rcases List.mem_cons.1 ha with h | h
    · subst h
      exact le_trans (foldl_cMin_le_init t (cMin v a)) (cMin_le_right v a)
    · exact ih (cMin v x) a h

theorem le_foldl_cMax_init : ∀ (l : List ℚ) (v : ℚ), v ≤ l.foldl cMax v := by
  intro l
  induction l with
  | nil => intro v; exact le_refl v
  | cons a t ih =>
    intro v
    exact le_trans (le_cMax_left v a) (ih (cMax v a))

theorem le_foldl_cMax_mem : ∀ (l : List ℚ) (v a : ℚ), a ∈ l → a ≤ l.foldl cMax v := by
  intro l
  induction l with
  | nil => intro v a ha; cases ha
  | cons x t ih =>
    intro v a ha
    rcases List.mem_cons.1 ha with h | h
    · subst h
      exact le_trans (le_cMax_right v a) (le_foldl_cMax_init t (cMax v a))
    · exact ih (cMax v x) a h

theorem foldl_choice (cmb : ℚ → ℚ → ℚ) (hch : ∀ a b, cmb a b = a ∨ cmb a b = b) :
    ∀ (l : List ℚ) (v : ℚ), l.foldl cmb v = v ∨ ∃ a ∈ l, l.foldl cmb v = a := by
  intro l
  induction l with
  | nil => intro v; exact Or.inl rfl
  | cons x t ih =>
    intro v
    show t.foldl cmb (cmb v x) = v ∨ ∃ a ∈ x :: t, t.foldl cmb (cmb v x) = a
    rcases ih (cmb v x) with h | ⟨a, ha, he⟩
    · rcases hch v x with h2 | h2
      · exact Or.inl (h.trans h2)
      · exact Or.inr ⟨x, List.mem_cons_self _ _, h.trans h2⟩
    · exact Or.inr ⟨a, List.mem_cons_of_mem _ ha, he⟩

theorem exec_fold_some (cmb : ℚ → ℚ → ℚ) (req : MMReq) (P : ℕ → Option (ℕ → ℚ)) (j : ℕ)
    (w : ℕ × ℕ × ℕ → ℚ) :
    ∀ (rest : List (ℕ × ℕ × ℕ)) (acc : ℚ),
      (∀ s ∈ rest, segValue cmb req P j s = some (w s)) →
      rest.foldl (fun acc2 t => optMap2 cmb acc2 (segValue cmb req P j t)) (some acc) =
        some ((rest.map w).foldl cmb acc) := by
  intro rest
  induction rest with
  | nil => intro acc _; rfl
  | cons s ts ih =>
    intro acc hs
    show ts.foldl _ (optMap2 cmb (some acc) (segValue cmb req P j s)) = _
    rw [hs s (List.mem_cons_self _ _)]
    show ts.foldl _ (some (cmb acc (w s))) = _
    rw [ih (cmb acc (w s)) (fun u hu => hs u (List.mem_cons_of_mem _ hu))]
    rfl

theorem execRow_min_char (req : MMReq) (hv : MMValid req) (mrle : List (ℕ × ℕ × ℕ))
    (P : ℕ → Option (ℕ → ℚ)) (xrow : ℕ → ℕ → ℚ) (j : ℕ)
    (hP : ∀ s ∈ mrle, P s.1 = some (xrow s.1))
    (hlen : ∀ s ∈ mrle, EachNeeded req s.2.2 ∧ 1 ≤ s.2.2)
    (hne : mrle ≠ []) :
    ∃ m, execRow cMin req mrle P j = some m ∧
      (∀ s ∈ mrle, ∀ c, s.2.1 ≤ c → c < s.2.1 + s.2.2 → m ≤ xrow s.1 (c + j)) ∧
      (∃ s ∈ mrle, ∃ c, s.2.1 ≤ c ∧ c < s.2.1 + s.2.2 ∧ m = xrow s.1 (c + j)) := by
  have hseg : ∀ s ∈ mrle, segValue cMin req P j s =
      some (windowFold cMin (xrow s.1) (s.2.2 - 1) (s.2.1 + j)) := by
    intro s hs
    unfold segValue
    rw [hP s hs]
    exact congrArg some
      (fillEach_min_ok req hv (xrow s.1) s.2.2 (s.2.1 + j) (hlen s hs).1 (hlen s hs).2)
  have hwin_le : ∀ s ∈ mrle, ∀ c, s.2.1 ≤ c → c < s.2.1 + s.2.2 →
      windowFold cMin (xrow s.1) (s.2.2 - 1) (s.2.1 + j) ≤ xrow s.1 (c + j) := by
    intro s hs c h1 h2
    exact windowFold_min_le (xrow s.1) (s.2.2 - 1) (s.2.1 + j) (c + j) (by omega)
      (by have := (hlen s hs).2; omega)
  have hwin_mem : ∀ s ∈ mrle, ∃ c, s.2.1 ≤ c ∧ c < s.2.1 + s.2.2 ∧
      windowFold cMin (xrow s.1) (s.2.2 - 1) (s.2.1 + j) = xrow s.1 (c + j) := by
    intro s hs
    obtain ⟨t0, ht1, ht2, ht3⟩ := windowFold_choice cMin cMin_choice (xrow s.1)
      (s.2.2 - 1) (s.2.1 + j)
    refine ⟨t0 - j, by omega, by have := (hlen s hs).2; omega, ?_⟩
    rw [ht3]
    congr 1
    omega
  match mrle, hne with
  | s0 :: rest, _ =>
    have hfold := exec_fold_some cMin req P j
      (fun s => windowFold cMin (xrow s.1) (s.2.2 - 1) (s.2.1 + j)) rest
      (windowFold cMin (xrow s0.1) (s0.2.2 - 1) (s0.2.1 + j))
      (fun u hu => hseg u (List.mem_cons_of_mem _ hu))
    refine ⟨(rest.map (fun s => windowFold cMin (xrow s.1) (s.2.2 - 1) (s.2.1 + j))).foldl cMin
        (windowFold cMin (xrow s0.1) (s0.2.2 - 1) (s0.2.1 + j)), ?_, ?_, ?_⟩
    · show rest.foldl (fun acc t => optMap2 cMin acc (segValue cMin req P j t))
        (segValue cMin req P j s0) = _
      rw [hseg s0 (List.mem_cons_self _ _)]
      exact hfold
    · intro s hs c h1 h2
      rcases List.mem_cons.1 hs with h | h
      · subst h
        exact le_trans (foldl_cMin_le_init _ _) (hwin_le s hs c h1 h2)
      · refine le_trans (foldl_cMin_le_mem _ _ _ (List.mem_map.2 ⟨s, h, rfl⟩)) ?_
        exact hwin_le s hs c h1 h2
    · rcases foldl_choice cMin cMin_choice (rest.map
          (fun s => windowFold cMin (xrow s.1) (s.2.2 - 1) (s.2.1 + j)))
          (windowFold cMin (xrow s0.1) (s0.2.2 - 1) (s0.2.1 + j)) with h | ⟨a, ha, he⟩
      · obtain ⟨c, hc1, hc2, hc3⟩ := hwin_mem s0 (List.mem_cons_self _ _)
        exact ⟨s0, List.mem_cons_self _ _, c, hc1, hc2, by rw [h, hc3]⟩
      · obtain ⟨s, hsm, hsv⟩ := List.mem_map.1 ha
        obtain ⟨c, hc1, hc2, hc3⟩ := hwin_mem s (List.mem_cons_of_mem _ hsm)
        exact ⟨s, List.mem_cons_of_mem _ hsm, c, hc1, hc2, by rw [he, ← hsv, hc3]⟩

theorem execRow_max_char (req : MMReq) (hv : MMValid req) (mrle : List (ℕ × ℕ × ℕ))
    (P : ℕ → Option (ℕ → ℚ)) (xrow : ℕ → ℕ → ℚ) (j : ℕ)
    (hP : ∀ s ∈ mrle, P s.1 = some (xrow s.1))
    (hlen : ∀ s ∈ mrle, EachNeeded req s.2.2 ∧ 1 ≤ s.2.2)
    (hne : mrle ≠ []) :
    ∃ m, execRow cMax req mrle P j = some m ∧
      (∀ s ∈ mrle, ∀ c, s.2.1 ≤ c → c < s.2.1 + s.2.2 → xrow s.1 (c + j) ≤ m) ∧
      (∃ s ∈ mrle, ∃ c, s.2.1 ≤ c ∧ c < s.2.1 + s.2.2 ∧ m = xrow s.1 (c + j)) := by
  have hseg : ∀ s ∈ mrle, segValue cMax req P j s =
      some (windowFold cMax (xrow s.1) (s.2.2 - 1) (s.2.1 + j)) := by
    intro s hs
    unfold segValue
    rw [hP s hs]
    exact congrArg some
      (fillEach_max_ok req hv (xrow s.1) s.2.2 (s.2.1 + j) (hlen s hs).1 (hlen s hs).2)
  have hwin_le : ∀ s ∈ mrle, ∀ c, s.2.1 ≤ c → c < s.2.1 + s.2.2 →
      xrow s.1 (c + j) ≤ windowFold cMax (xrow s.1) (s.2.2 - 1) (s.2.1 + j) := by
    intro s hs c h1 h2
    exact le_windowFold_max (xrow s.1) (s.2.2 - 1) (s.2.1 + j) (c + j) (by omega)
      (by have := (hlen s hs).2; omega)
  have hwin_mem : ∀ s ∈ mrle, ∃ c, s.2.1 ≤ c ∧ c < s.2.1 + s.2.2 ∧
      windowFold cMax (xrow s.1) (s.2.2 - 1) (s.2.1 + j) = xrow s.1 (c + j) := by
    intro s hs
    obtain ⟨t0, ht1, ht2, ht3⟩ := windowFold_choice cMax cMax_choice (xrow s.1)
      (s.2.2 - 1) (s.2.1 + j)
    refine ⟨t0 - j, by omega, by have := (hlen s hs).2; omega, ?_⟩
    rw [ht3]
    congr 1
    omega
  match mrle, hne with
  | s0 :: rest, _ =>
    have hfold := exec_fold_some cMax req P j
      (fun s => windowFold cMax (xrow s.1) (s.2.2 - 1) (s.2.1 + j)) rest
      (windowFold cMax (xrow s0.1) (s0.2.2 - 1) (s0.2.1 + j))
      (fun u hu => hseg u (List.mem_cons_of_mem _ hu))
    refine ⟨(rest.map (fun s => windowFold cMax (xrow s.1) (s.2.2 - 1) (s.2.1 + j))).foldl cMax
        (windowFold cMax (xrow s0.1) (s0.2.2 - 1) (s0.2.1 + j)), ?_, ?_, ?_⟩
    · show rest.foldl (fun acc t => optMap2 cMax acc (segValue cMax req P j t))
        (segValue cMax req P j s0) = _
      rw [hseg s0 (List.mem_cons_self _ _)]
      exact hfold
    · intro s hs c h1 h2
      rcases List.mem_cons.1 hs with h | h
      · subst h
        exact le_trans (hwin_le s hs c h1 h2) (le_foldl_cMax_init _ _)
      · refine le_trans (hwin_le s hs c h1 h2) ?_
        exact le_foldl_cMax_mem _ _ _ (List.mem_map.2 ⟨s, h, rfl⟩)
    · rcases foldl_choice cMax cMax_choice (rest.map
          (fun s => windowFold cMax (xrow s.1) (s.2.2 - 1) (s.2.1 + j)))
          (windowFold cMax (xrow s0.1) (s0.2.2 - 1) (s0.2.1 + j)) with h | ⟨a, ha, he⟩
      · obtain ⟨c, hc1, hc2, hc3⟩ := hwin_mem s0 (List.mem_cons_self _ _)
        exact ⟨s0, List.mem_cons_self _ _, c, hc1, hc2, by rw [h, hc3]⟩
      · obtain ⟨s, hsm, hsv⟩ := List.mem_map.1 ha
        obtain ⟨c, hc1, hc2, hc3⟩ := hwin_mem s (List.mem_cons_of_mem _ hsm)
        exact ⟨s, List.mem_cons_of_mem _ hsm, c, hc1, hc2, by rw [he, ← hsv, hc3]⟩

/-! ### Bridge to the brute-force reference filters -/

theorem extRow_cell_val (d : ℕ → ℕ → ℚ) (xres yres col width el er eu i j row : ℕ)
    (hxr : 1 ≤ xres) (hcw : col + width ≤ xres) (hj : j < width)
    (t c : ℕ) (hc : c ≤ el + er) :
    extRowAt d xres col width el er (clampI (row + i + t) eu yres) (c + j) =
      bruteCellVal d xres yres col row eu el i j (t, c) := by
  unfold extRowAt bruteCellVal
  rw [rowExtendBorder_clamp (d _) col width xres el er hcw hxr (c + j) (by omega)]
  congr 1
  simp only [clampI]
  omega

theorem mem_kernelCellList (K : ℕ → ℕ → Bool) (kx ky : ℕ) (s : ℕ × ℕ) :
    s ∈ kernelCellList K kx ky ↔ s.1 < ky ∧ s.2 < kx ∧ K s.1 s.2 = true := by
  unfold kernelCellList
  rw [List.mem_flatMap]
  constructor
  · rintro ⟨r, hr, hs⟩
    rw [List.mem_map] at hs
    obtain ⟨c, hc, hcs⟩ := hs
    rw [List.mem_filter, List.mem_range] at hc
    subst hcs
    exact ⟨List.mem_range.1 hr, hc.1, hc.2⟩
  · rintro ⟨h1, h2, h3⟩
    exact ⟨s.1, List.mem_range.2 h1,
      List.mem_map.2 ⟨s.2, List.mem_filter.2 ⟨List.mem_range.2 h2, h3⟩, rfl⟩⟩

theorem listExtreme_min_char (l : List ℚ) (hne : l ≠ []) :
    ∃ m, listExtreme cMin l = some m ∧ (∀ a ∈ l, m ≤ a) ∧ ∃ a ∈ l, m = a := by
  match l, hne with
  | v :: rest, _ =>
    refine ⟨rest.foldl cMin v, rfl, ?_, ?_⟩
    · intro a ha
      rcases List.mem_cons.1 ha with h | h
      · subst h
        exact foldl_cMin_le_init rest a
      · exact foldl_cMin_le_mem rest v a h
    · rcases foldl_choice cMin cMin_choice rest v with h | ⟨a, ha, he⟩
      · exact ⟨v, List.mem_cons_self _ _, h⟩
      · exact ⟨a, List.mem_cons_of_mem _ ha, he⟩

theorem listExtreme_max_char (l : List ℚ) (hne : l ≠ []) :
    ∃ m, listExtreme cMax l = some m ∧ (∀ a ∈ l, a ≤ m) ∧ ∃ a ∈ l, m = a := by
  match l, hne with
  | v :: rest, _ =>
    refine ⟨rest.foldl cMax v, rfl, ?_, ?_⟩
    · intro a ha
      rcases List.mem_cons.1 ha with h | h
      · subst h
        exact le_foldl_cMax_init rest a
      · exact le_foldl_cMax_mem rest v a h
    · rcases foldl_choice cMax cMax_choice rest v with h | ⟨a, ha, he⟩
      · exact ⟨v, List.mem_cons_self _ _, h⟩
      · exact ⟨a, List.mem_cons_of_mem _ ha, he⟩

theorem exec_eq_bruteErosion (d : ℕ → ℕ → ℚ) (xres yres : ℕ) (K : ℕ → ℕ → Bool)
    (kx ky col row width i j : ℕ)
    (hxr : 1 ≤ xres) (hcw : col + width ≤ xres)
    (hrow : row < yres) (hiy : row + i + 1 ≤ yres)
    (hky : 1 ≤ ky) (hkx : 1 ≤ kx)
    (hcase : row + ky / 2 < yres ∨ (ky - 1) / 2 = 0)
    (hcell : ∃ t c, t < ky ∧ c < kx ∧ K t c = true)
    (hj : j < width) :
    minMaxExec d xres yres (encodeRLE K kx ky) (planSet (rleLens (encodeRLE K kx ky)))
      false col row width kx ky i j = bruteErosion d xres yres K kx ky col row i j := by
  obtain ⟨t1, c1, ht1, hc1, hK1⟩ := hcell
  have hexec : minMaxExec d xres yres (encodeRLE K kx ky)
      (planSet (rleLens (encodeRLE K kx ky))) false col row width kx ky i j =
      execRow cMin (planSet (rleLens (encodeRLE K kx ky))) (encodeRLE K kx ky)
        (prowsAt d xres yres col width row ((ky - 1) / 2) (ky / 2) ((kx - 1) / 2) (kx / 2) ky i)
        j := rfl
  have hP : ∀ s ∈ encodeRLE K kx ky,
      prowsAt d xres yres col width row ((ky - 1) / 2) (ky / 2) ((kx - 1) / 2) (kx / 2) ky i
          s.1 =
        some (extRowAt d xres col width ((kx - 1) / 2) (kx / 2)
          (clampI (row + i + s.1) ((ky - 1) / 2) yres)) := by
    intro s hs
    refine prowsAt_ok d xres yres col width row ((ky - 1) / 2) (ky / 2) ((kx - 1) / 2) (kx / 2)
      ky (i + 1) (by omega) hrow (by omega) hcase i (by omega) s.1 ?_
    have := (encodeRLE_mem K kx ky hs).1
    omega
  have hlen : ∀ s ∈ encodeRLE K kx ky,
      EachNeeded (planSet (rleLens (encodeRLE K kx ky))) s.2.2 ∧ 1 ≤ s.2.2 := by
    intro s hs
    have h1 := (encodeRLE_mem K kx ky hs).2.1
    exact ⟨Or.inr (planSet_marks _ _ (List.mem_map.2 ⟨s, hs, rfl⟩) h1), h1⟩
  have hne : encodeRLE K kx ky ≠ [] := by
    obtain ⟨s, hm, _⟩ := encodeRLE_covers K kx ky t1 c1 ht1 hc1 hK1
    exact List.ne_nil_of_mem hm
  obtain ⟨m, hm1, hm2, hm3⟩ := execRow_min_char _ (valid_planSet _) _ _
    (fun t => extRowAt d xres col width ((kx - 1) / 2) (kx / 2)
      (clampI (row + i + t) ((ky - 1) / 2) yres)) j hP hlen hne
  have hmap_ne : (kernelCellList K kx ky).map
      (bruteCellVal d xres yres col row ((ky - 1) / 2) ((kx - 1) / 2) i j) ≠ [] := by
    intro hemp
    rw [List.map_eq_nil] at hemp
    have hm0 : (t1, c1) ∈ kernelCellList K kx ky :=
      (mem_kernelCellList K kx ky (t1, c1)).2 ⟨ht1, hc1, hK1⟩
    rw [hemp] at hm0
    cases hm0
  obtain ⟨m', hb1, hb2, hb3⟩ := listExtreme_min_char _ hmap_ne
  have hval : ∀ t c, c < kx →
      extRowAt d xres col width ((kx - 1) / 2) (kx / 2)
        (clampI (row + i + t) ((ky - 1) / 2) yres) (c + j) =
      bruteCellVal d xres yres col row ((ky - 1) / 2) ((kx - 1) / 2) i j (t, c) := by
    intro t c hc
    exact extRow_cell_val d xres yres col width ((kx - 1) / 2) (kx / 2) ((ky - 1) / 2) i j row
      hxr hcw hj t c (by omega)
  have hle1 : m ≤ m' := by
    obtain ⟨a, ha, he⟩ := hb3
    obtain ⟨s0, hs0, hval0⟩ := List.mem_map.1 ha
    have hs0p := (mem_kernelCellList K kx ky s0).1 hs0
    obtain ⟨seg, hsegm, hseg1, hseg2, hseg3⟩ := encodeRLE_covers K kx ky s0.1 s0.2
      hs0p.1 hs0p.2.1 hs0p.2.2
    have hb := hm2 seg hsegm s0.2 hseg2 hseg3
    rw [hseg1] at hb
    rw [he, ← hval0]
    exact le_of_le_of_eq hb (hval s0.1 s0.2 hs0p.2.1)
  have hle2 : m' ≤ m := by
    obtain ⟨seg, hsegm, c, hcc1, hcc2, he⟩ := hm3
    have hsegp := encodeRLE_mem K kx ky hsegm
    have hKc : K seg.1 c = true := hsegp.2.2.2 c hcc1 hcc2
    have hcx : c < kx := by
      have := hsegp.2.2.1
      omega
    have hmemc : (seg.1, c) ∈ kernelCellList K kx ky :=
      (mem_kernelCellList K kx ky (seg.1, c)).2 ⟨hsegp.1, hcx, hKc⟩
    have hb := hb2 _ (List.mem_map.2 ⟨(seg.1, c), hmemc, rfl⟩)
    rw [he, hval seg.1 c hcx]
    exact hb
  rw [hexec, hm1]
  unfold bruteErosion
  rw [hb1]
  exact congrArg some (le_antisymm hle1 hle2)

theorem exec_eq_bruteDilation (d : ℕ → ℕ → ℚ) (xres yres : ℕ) (K : ℕ → ℕ → Bool)
    (kx ky col row width i j : ℕ)
    (hxr : 1 ≤ xres) (hcw : col + width ≤ xres)
    (hrow : row < yres) (hiy : row + i + 1 ≤ yres)
    (hky : 1 ≤ ky) (hkx : 1 ≤ kx)
    (hcase : row + (ky - 1) / 2 < yres ∨ ky / 2 = 0)
    (hcell : ∃ t c, t < ky ∧ c < kx ∧ K t c = true)
    (hj : j < width) :
    minMaxExec d xres yres (rleFlip (encodeRLE K kx ky) kx ky)
      (planSet (rleLens (encodeRLE K kx ky))) true col row width kx ky i j =
      bruteDilation d xres yres K kx ky col row i j := by
  obtain ⟨t1, c1, ht1, hc1, hK1⟩ := hcell
  have hexec : minMaxExec d xres yres (rleFlip (encodeRLE K kx ky) kx ky)
      (planSet (rleLens (encodeRLE K kx ky))) true col row width kx ky i j =
      execRow cMax (planSet (rleLens (encodeRLE K kx ky))) (rleFlip (encodeRLE K kx ky) kx ky)
        (prowsAt d xres yres col width row (ky / 2) ((ky - 1) / 2) (kx / 2) ((kx - 1) / 2) ky i)
        j := rfl
  have hflipmem : ∀ s ∈ rleFlip (encodeRLE K kx ky) kx ky,
      s.1 < ky ∧ 1 ≤ s.2.2 ∧ s.2.1 + s.2.2 ≤ kx ∧ s.2.2 ∈ rleLens (encodeRLE K kx ky) := by
    intro s hs
    obtain ⟨s0, hm0, hseq⟩ := rleFlip_mem hs
    have h0 := encodeRLE_mem K kx ky hm0
    subst hseq
    refine ⟨show ky - 1 - s0.1 < ky by omega, h0.2.1, ?_,
      List.mem_map.2 ⟨s0, hm0, rfl⟩⟩
    show kx - s0.2.1 - s0.2.2 + s0.2.2 ≤ kx
    have := h0.2.2.1
    omega
  have hP : ∀ s ∈ rleFlip (encodeRLE K kx ky) kx ky,
      prowsAt d xres yres col width row (ky / 2) ((ky - 1) / 2) (kx / 2) ((kx - 1) / 2) ky i
          s.1 =
        some (extRowAt d xres col width (kx / 2) ((kx - 1) / 2)
          (clampI (row + i + s.1) (ky / 2) yres)) := by
    intro s hs
    refine prowsAt_ok d xres yres col width row (ky / 2) ((ky - 1) / 2) (kx / 2) ((kx - 1) / 2)
      ky (i + 1) (by omega) hrow (by omega) hcase i (by omega) s.1 ?_
    exact (hflipmem s hs).1
  have hlen : ∀ s ∈ rleFlip (encodeRLE K kx ky) kx ky,
      EachNeeded (planSet (rleLens (encodeRLE K kx ky))) s.2.2 ∧ 1 ≤ s.2.2 := by
    intro s hs
    have h0 := hflipmem s hs
    exact ⟨Or.inr (planSet_marks _ _ h0.2.2.2 h0.2.1), h0.2.1⟩
  have hne : rleFlip (encodeRLE K kx ky) kx ky ≠ [] := by
    have hrefl : K (ky - 1 - (ky - 1 - t1)) (kx - 1 - (kx - 1 - c1)) = true := by
      have e1 : ky - 1 - (ky - 1 - t1) = t1 := by omega
      have e2 : kx - 1 - (kx - 1 - c1) = c1 := by omega
      rw [e1, e2]
      exact hK1
    obtain ⟨s, hm, _⟩ := (inSegs_flip_encode K kx ky (ky - 1 - t1) (kx - 1 - c1)
      (by omega) (by omega)).2 hrefl
    exact List.ne_nil_of_mem hm
  obtain ⟨m, hm1, hm2, hm3⟩ := execRow_max_char _ (valid_planSet _) _ _
    (fun t => extRowAt d xres col width (kx / 2) ((kx - 1) / 2)
      (clampI (row + i + t) (ky / 2) yres)) j hP hlen hne
  have hmap_ne : (kernelCellList (reflKernel K kx ky) kx ky).map
      (bruteCellVal d xres yres col row (ky / 2) (kx / 2) i j) ≠ [] := by
    intro hemp
    rw [List.map_eq_nil] at hemp
    have hreflc : reflKernel K kx ky (ky - 1 - t1) (kx - 1 - c1) = true := by
      show K (ky - 1 - (ky - 1 - t1)) (kx - 1 - (kx - 1 - c1)) = true
      have e1 : ky - 1 - (ky - 1 - t1) = t1 := by omega
      have e2 : kx - 1 - (kx - 1 - c1) = c1 := by omega
      rw [e1, e2]
      exact hK1
    have hm0 : (ky - 1 - t1, kx - 1 - c1) ∈ kernelCellList (reflKernel K kx ky) kx ky :=
      (mem_kernelCellList _ kx ky _).2 ⟨by omega, by omega, hreflc⟩
    rw [hemp] at hm0
    cases hm0
  obtain ⟨m', hb1, hb2, hb3⟩ := listExtreme_max_char _ hmap_ne
  have hval : ∀ t c, c < kx →
      extRowAt d xres col width (kx / 2) ((kx - 1) / 2)
        (clampI (row + i + t) (ky / 2) yres) (c + j) =
      bruteCellVal d xres yres col row (ky / 2) (kx / 2) i j (t, c) := by
    intro t c hc
    exact extRow_cell_val d xres yres col width (kx / 2) ((kx - 1) / 2) (ky / 2) i j row
      hxr hcw hj t c (by omega)
  have hle1 : m ≤ m' := by
    obtain ⟨seg, hsegm, c, hcc1, hcc2, he⟩ := hm3
    have hsegp := hflipmem seg hsegm
    have hcx : c < kx := by
      have := hsegp.2.2.1
      omega
    have hKc : reflKernel K kx ky seg.1 c = true :=
      (inSegs_flip_encode K kx ky seg.1 c hsegp.1 hcx).1 ⟨seg, hsegm, rfl, hcc1, hcc2⟩
    have hmemc : (seg.1, c) ∈ kernelCellList (reflKernel K kx ky) kx ky :=
      (mem_kernelCellList _ kx ky (seg.1, c)).2 ⟨hsegp.1, hcx, hKc⟩
    have hb := hb2 _ (List.mem_map.2 ⟨(seg.1, c), hmemc, rfl⟩)
    rw [he, hval seg.1 c hcx]
    exact hb
  have hle2 : m' ≤ m := by
    obtain ⟨a, ha, he⟩ := hb3
    obtain ⟨s0, hs0, hval0⟩ := List.mem_map.1 ha
    have hs0p := (mem_kernelCellList _ kx ky s0).1 hs0
    obtain ⟨seg, hsegm, hseg1, hseg2, hseg3⟩ :=
      (inSegs_flip_encode K kx ky s0.1 s0.2 hs0p.1 hs0p.2.1).2 hs0p.2.2
    have hb := hm2 seg hsegm s0.2 hseg2 hseg3
    rw [hseg1] at hb
    rw [he, ← hval0]
    exact le_of_eq_of_le (hval s0.1 s0.2 hs0p.2.1).symm hb
  rw [hexec, hm1]
  unfold bruteDilation
  rw [hb1]
  exact congrArg some (le_antisymm hle1 hle2)

/-! ### The filter facade versus the brute-force reference -/

theorem writeRegion_in (d : ℕ → ℕ → ℚ) (col row width height : ℕ)
    (out : ℕ → ℕ → Option ℚ) (i j : ℕ) (hi : i < height) (hj : j < width) :
    writeRegion d col row width height out (row + i) (col + j) = out i j := by
  simp only [writeRegion]
  rw [if_pos (show row ≤ row + i ∧ row + i < row + height ∧ col ≤ col + j ∧ col + j < col + width
    from ⟨by omega, by omega, by omega, by omega⟩)]
  have e1 : row + i - row = i := by omega
  have e2 : col + j - col = j := by omega
  rw [e1, e2]

/-- C2: for a valid region and a kernel with at least one nonzero cell, the
Erosion filter writes at each region pixel the border-extended brute-force
minimum over the kernel neighbourhood, and the Dilation filter the
border-extended brute-force maximum over the point-reflected kernel
neighbourhood — provided the region's first output row is far enough from the
bottom edge for the buffer seeding to stay in the field
(`row + extend_down < yres`, or no upward extension at all), the restriction
forced by the seeding defect recorded with C3. -/
theorem filter_matches_brute_force (d : ℕ → ℕ → ℚ) (xres yres : ℕ) (K : ℕ → ℕ → Bool)
    (kx ky col row width height i j : ℕ)
    (hreg : regionOK xres yres col row width height)
    (hcell : ∃ t c, t < ky ∧ c < kx ∧ K t c = true)
    (hi : i < height) (hj : j < width)
    (hmin : row + ky / 2 < yres ∨ (ky - 1) / 2 = 0)
    (hmax : row + (ky - 1) / 2 < yres ∨ ky / 2 = 0) :
    filterMinMaxReal d xres yres K kx ky .minimum col row width height (row + i) (col + j) =
      bruteErosion d xres yres K kx ky col row i j ∧
    filterMinMaxReal d xres yres K kx ky .maximum col row width height (row + i) (col + j) =
      bruteDilation d xres yres K kx ky col row i j := by
  obtain ⟨hw, hh, hcw, hrh⟩ := id hreg
  have hky : 1 ≤ ky := by
    obtain ⟨t, c, ht, hc, _⟩ := hcell
    omega
  have hkx : 1 ≤ kx := by
    obtain ⟨t, c, ht, hc, _⟩ := hcell
    omega
  have hxr : 1 ≤ xres := by omega
  have hrow : row < yres := by omega
  have hiy : row + i + 1 ≤ yres := by omega
  constructor
  · have h1 : filterMinMaxReal d xres yres K kx ky .minimum col row width height
        (row + i) (col + j) =
        writeRegion d col row width height
          (minMaxExec d xres yres (encodeRLE K kx ky) (planSet (rleLens (encodeRLE K kx ky)))
            false col row width kx ky) (row + i) (col + j) := by
      unfold filterMinMaxReal
      rw [if_pos hreg]
    rw [h1, writeRegion_in d col row width height _ i j hi hj]
    exact exec_eq_bruteErosion d xres yres K kx ky col row width i j hxr hcw hrow hiy hky hkx
      hmin hcell hj
  · have h1 : filterMinMaxReal d xres yres K kx ky .maximum col row width height
        (row + i) (col + j) =
        writeRegion d col row width height
          (minMaxExec d xres yres (rleFlip (encodeRLE K kx ky) kx ky)
            (planSet (rleLens (encodeRLE K kx ky))) true col row width kx ky)
          (row + i) (col + j) := by
      unfold filterMinMaxReal
      rw [if_pos hreg]
    rw [h1, writeRegion_in d col row width height _ i j hi hj]
    exact exec_eq_bruteDilation d xres yres K kx ky col row width i j hxr hcw hrow hiy hky hkx
      hmax hcell hj

/-- Witness for C2 on the 5-pixel row `[3, 1, 4, 1, 5]` with the 1x3 all-ones
kernel at the first region pixel. -/
theorem filter_matches_brute_force_witness :
    (regionOK 5 1 0 0 5 1 ∧ (0 : ℕ) < 1 ∧ (0 : ℕ) < 5 ∧
      ((0 : ℕ) + 1 / 2 < 1 ∨ (1 - 1) / 2 = 0) ∧ ((0 : ℕ) + (1 - 1) / 2 < 1 ∨ 1 / 2 = 0)) ∧
    (filterMinMaxReal specField 5 1 onesKernel 3 1 .minimum 0 0 5 1 (0 + 0) (0 + 0) =
        bruteErosion specField 5 1 onesKernel 3 1 0 0 0 0 ∧
      filterMinMaxReal specField 5 1 onesKernel 3 1 .maximum 0 0 5 1 (0 + 0) (0 + 0) =
        bruteDilation specField 5 1 onesKernel 3 1 0 0 0 0) :=
  ⟨⟨by decide, by decide, by decide, by decide, by decide⟩,
   filter_matches_brute_force specField 5 1 onesKernel 3 1 0 0 5 1 0 0 (by decide)
     ⟨0, 0, by decide, by decide, rfl⟩ (by decide) (by decide) (by decide) (by decide)⟩

/-- Counterexample to C2 as stated: on a 1x1 field of value 5 with the convex
1x3 all-ones column kernel (a single nonzero column), the minimum filter's
output buffer at the only region pixel is unwritten memory (`none`), while the
brute-force border-extended erosion is `some 5`; the buffer seeding of
`gwy_data_field_area_min_max_execute` never writes the buffers for the rows
clamped to the bottom edge (see C3). -/
theorem filter_vs_brute_counterexample :
    filterMinMaxReal cexField1 1 1 cexKernelCol3 1 3 .minimum 0 0 1 1 (0 + 0) (0 + 0) = none ∧
    bruteErosion cexField1 1 1 cexKernelCol3 1 3 0 0 0 0 = some 5 := by
  constructor
  · rfl
  · rfl

/-- Counterexample to C3 as stated: the first seeding loop's out-of-field
branch copies `prows[i-1]` into `prows[i]` instead of into
`prows[i + extend_up]`, so the buffers for vertical offsets clamped to the
bottom edge are never written.  On a 1x1 field with the 1x3 all-ones column
kernel (minimum filter: extend_up = 1, extend_down = 1, kyres = 3) the copy
overwrites the single filled buffer with unwritten memory and the second loop
propagates it: after seeding all three live buffers are `none` instead of
holding the edge row's precomputed data, and the executor's only output pixel
reads unwritten memory. -/
theorem seeding_copies_wrong_buffer :
    seedRows cexField1 1 1 0 1 0 1 1 0 0 3 0 = none ∧
    seedRows cexField1 1 1 0 1 0 1 1 0 0 3 1 = none ∧
    seedRows cexField1 1 1 0 1 0 1 1 0 0 3 2 = none ∧
    minMaxExec cexField1 1 1 (encodeRLE cexKernelCol3 1 3)
      (planSet (rleLens (encodeRLE cexKernelCol3 1 3))) false 0 0 1 1 3 0 0 = none :=
  ⟨rfl, rfl, rfl, rfl⟩

/-- C3: corrected — when every vertical offset of `-extend_up .. extend_down`
whose source row is taken below the first output row stays inside the field
(`row + extend_down < yres`), or there is no upward extension at all
(`extend_up = 0`, in which case the misdirected copy happens to land on the
intended buffer index), the seeding of `gwy_data_field_area_min_max_execute`
does leave each of the `kyres` live buffers holding the precomputed data of
its clamped (edge-replicated) source row before the first output row is
produced.  Outside this proviso the copy in the first loop's else branch
targets `prows[i]` instead of `prows[i + extend_up]` and buffers end
unwritten, as the counterexample shows. -/
theorem seeding_replicates_edge_rows (d : ℕ → ℕ → ℚ)
    (xres yres col width row eu ed el er kyres t : ℕ)
    (hky : eu + ed + 1 = kyres) (hrow : row < yres)
    (hcase : row + ed < yres ∨ eu = 0) (ht : t < kyres) :
    seedRows d xres yres col width row eu ed el er kyres t =
      some (extRowAt d xres col width el er (clampI (row + t) eu yres)) :=
  seedRows_ok d xres yres col width row eu ed el er kyres hky hrow hcase t ht

/-- Witness for C3's amended seeding guarantee: a 1x3 vertical kernel
(extend_up = extend_down = 1) on a one-column field of three rows, first
output row 0; the last live buffer holds the row clamped from offset +1. -/
theorem seeding_replicates_edge_rows_witness :
    (1 + 1 + 1 = 3 ∧ (0 : ℕ) < 3 ∧ ((0 : ℕ) + 1 < 3 ∨ (1 : ℕ) = 0) ∧ (2 : ℕ) < 3) ∧
    seedRows cexField1 1 3 0 1 0 1 1 0 0 3 2 =
      some (extRowAt cexField1 1 0 1 0 0 (clampI (0 + 2) 1 3)) :=
  ⟨⟨rfl, by decide, Or.inl (by decide), by decide⟩,
   seeding_replicates_edge_rows cexField1 1 3 0 1 0 1 1 0 0 3 2 rfl (by decide)
     (Or.inl (by decide)) (by decide)⟩

theorem centre_val_erosion (d : ℕ → ℕ → ℚ) (xres yres : ℕ) (K : ℕ → ℕ → Bool)
    (kx ky col row i j : ℕ) (hky : 1 ≤ ky) (hkx : 1 ≤ kx)
    (hiy : row + i < yres) (hjx : col + j < xres)
    (hcentre : K ((ky - 1) / 2) ((kx - 1) / 2) = true) :
    d (row + i) (col + j) ∈ (kernelCellList K kx ky).map
      (bruteCellVal d xres yres col row ((ky - 1) / 2) ((kx - 1) / 2) i j) := by
  refine List.mem_map.2 ⟨((ky - 1) / 2, (kx - 1) / 2), (mem_kernelCellList K kx ky _).2
    ⟨by omega, by omega, hcentre⟩, ?_⟩
  show d (clampI (row + i + (ky - 1) / 2) ((ky - 1) / 2) yres)
      (clampI (col + j + (kx - 1) / 2) ((kx - 1) / 2) xres) = d (row + i) (col + j)
  have e1 : clampI (row + i + (ky - 1) / 2) ((ky - 1) / 2) yres = row + i := by
    simp only [clampI]
    omega
  have e2 : clampI (col + j + (kx - 1) / 2) ((kx - 1) / 2) xres = col + j := by
    simp only [clampI]
    omega
  rw [e1, e2]

theorem centre_val_dilation (d : ℕ → ℕ → ℚ) (xres yres : ℕ) (K : ℕ → ℕ → Bool)
    (kx ky col row i j : ℕ) (hky : 1 ≤ ky) (hkx : 1 ≤ kx)
    (hiy : row + i < yres) (hjx : col + j < xres)
    (hcentre : K ((ky - 1) / 2) ((kx - 1) / 2) = true) :
    d (row + i) (col + j) ∈ (kernelCellList (reflKernel K kx ky) kx ky).map
      (bruteCellVal d xres yres col row (ky / 2) (kx / 2) i j) := by
  have hrefl : reflKernel K kx ky (ky / 2) (kx / 2) = true := by
    show K (ky - 1 - ky / 2) (kx - 1 - kx / 2) = true
    have e1 : ky - 1 - ky / 2 = (ky - 1) / 2 := by omega
    have e2 : kx - 1 - kx / 2 = (kx - 1) / 2 := by omega
    rw [e1, e2]
    exact hcentre
  refine List.mem_map.2 ⟨(ky / 2, kx / 2), (mem_kernelCellList _ kx ky _).2
    ⟨by omega, by omega, hrefl⟩, ?_⟩
  show d (clampI (row + i + ky / 2) (ky / 2) yres)
      (clampI (col + j + kx / 2) (kx / 2) xres) = d (row + i) (col + j)
  have e1 : clampI (row + i + ky / 2) (ky / 2) yres = row + i := by
    simp only [clampI]
    omega
  have e2 : clampI (col + j + kx / 2) (kx / 2) xres = col + j := by
    simp only [clampI]
    omega
  rw [e1, e2]

theorem brute_pair_char (d : ℕ → ℕ → ℚ) (xres yres : ℕ) (K : ℕ → ℕ → Bool)
    (kx ky col row i j : ℕ) (hky : 1 ≤ ky) (hkx : 1 ≤ kx)
    (hiy : row + i < yres) (hjx : col + j < xres)
    (hcentre : K ((ky - 1) / 2) ((kx - 1) / 2) = true) :
    ∃ mn mx, bruteErosion d xres yres K kx ky col row i j = some mn ∧
      bruteDilation d xres yres K kx ky col row i j = some mx ∧
      mn ≤ d (row + i) (col + j) ∧ d (row + i) (col + j) ≤ mx := by
  have hcene := centre_val_erosion d xres yres K kx ky col row i j hky hkx hiy hjx hcentre
  have hcend := centre_val_dilation d xres yres K kx ky col row i j hky hkx hiy hjx hcentre
  obtain ⟨mn, h1, h2, _⟩ := listExtreme_min_char _ (List.ne_nil_of_mem hcene)
  obtain ⟨mx, h3, h4, _⟩ := listExtreme_max_char _ (List.ne_nil_of_mem hcend)
  exact ⟨mn, mx, h1, h3, h2 _ hcene, h4 _ hcend⟩

/-- C4: corrected — the Range operation does write dilation minus erosion at
every region pixel, but the difference is guaranteed nonnegative only when
the kernel contains its centre cell (the spec's unconditional claim fails for
kernels, such as `[1,0,0,1]`, whose erosion and dilation windows do not
overlap at the centre). -/
theorem range_writes_nonneg_difference (d : ℕ → ℕ → ℚ) (xres yres : ℕ) (K : ℕ → ℕ → Bool)
    (kx ky col row width height i j : ℕ)
    (hreg : regionOK xres yres col row width height)
    (hky : 1 ≤ ky) (hkx : 1 ≤ kx)
    (hi : i < height) (hj : j < width)
    (hmin : row + ky / 2 < yres ∨ (ky - 1) / 2 = 0)
    (hmax : row + (ky - 1) / 2 < yres ∨ ky / 2 = 0)
    (hcentre : K ((ky - 1) / 2) ((kx - 1) / 2) = true) :
    ∃ mn mx, bruteErosion d xres yres K kx ky col row i j = some mn ∧
      bruteDilation d xres yres K kx ky col row i j = some mx ∧
      filterMinMaxReal d xres yres K kx ky .range col row width height (row + i) (col + j) =
        some (mx - mn) ∧ 0 ≤ mx - mn := by
  obtain ⟨hw, hh, hcw, hrh⟩ := id hreg
  have hxr : 1 ≤ xres := by omega
  have hrow : row < yres := by omega
  have hiy : row + i + 1 ≤ yres := by omega
  have hcell : ∃ t c, t < ky ∧ c < kx ∧ K t c = true :=
    ⟨(ky - 1) / 2, (kx - 1) / 2, by omega, by omega, hcentre⟩
  obtain ⟨mn, mx, h1, h2, h3, h4⟩ := brute_pair_char d xres yres K kx ky col row i j hky hkx
    (by omega) (by omega) hcentre
  have he := exec_eq_bruteErosion d xres yres K kx ky col row width i j hxr hcw hrow hiy hky
    hkx hmin hcell hj
  have hd := exec_eq_bruteDilation d xres yres K kx ky col row width i j hxr hcw hrow hiy hky
    hkx hmax hcell hj
  refine ⟨mn, mx, h1, h2, ?_, by linarith⟩
  have hr1 : filterMinMaxReal d xres yres K kx ky .range col row width height
      (row + i) (col + j) =
      writeRegion d col row width height
        (fun i j =>
          optMap2 (fun mx mn => mx - mn)
            (minMaxExec d xres yres (rleFlip (encodeRLE K kx ky) kx ky)
              (planSet (rleLens (encodeRLE K kx ky))) true col row width kx ky i j)
            (minMaxExec d xres yres (encodeRLE K kx ky)
              (planSet (rleLens (encodeRLE K kx ky))) false col row width kx ky i j))
        (row + i) (col + j) := by
    unfold filterMinMaxReal
    rw [if_pos hreg]
  rw [hr1, writeRegion_in d col row width height _ i j hi hj]
  show optMap2 (fun mx mn => mx - mn)
      (minMaxExec d xres yres (rleFlip (encodeRLE K kx ky) kx ky)
        (planSet (rleLens (encodeRLE K kx ky))) true col row width kx ky i j)
      (minMaxExec d xres yres (encodeRLE K kx ky)
        (planSet (rleLens (encodeRLE K kx ky))) false col row width kx ky i j) =
      some (mx - mn)
  rw [he, hd, h1, h2]
  rfl

/-- Witness for C4 on the 5-pixel row `[3, 1, 4, 1, 5]` with the 1x3 all-ones
kernel (centre cell present) at the first region pixel. -/
theorem range_writes_nonneg_difference_witness :
    regionOK 5 1 0 0 5 1 ∧ onesKernel ((1 - 1) / 2) ((3 - 1) / 2) = true ∧
    (∃ mn mx, bruteErosion specField 5 1 onesKernel 3 1 0 0 0 0 = some mn ∧
      bruteDilation specField 5 1 onesKernel 3 1 0 0 0 0 = some mx ∧
      filterMinMaxReal specField 5 1 onesKernel 3 1 .range 0 0 5 1 (0 + 0) (0 + 0) =
        some (mx - mn) ∧ 0 ≤ mx - mn) :=
  ⟨by decide, rfl, range_writes_nonneg_difference specField 5 1 onesKernel 3 1 0 0 5 1 0 0
    (by decide) (by decide) (by decide) (by decide) (by decide) (by decide) (by decide) rfl⟩

/-- Counterexample to C4 as stated: on the row `[0, 5, 9, 0, 5]` with the
1x4 kernel `[1, 0, 0, 1]` (no centre cell), the Range filter writes `-5` at
region pixel `(0, 2)` — the dilation can fall below the erosion because the
two windows sample disjoint sets of pixels. -/
theorem range_negative_counterexample :
    filterMinMaxReal cexFieldRange 5 1 cexKernelHole4 4 1 .range 0 0 5 1 (0 + 0) (0 + 2) =
      some (-5) ∧ ¬ (0 : ℚ) ≤ -5 := by
  constructor
  · have h : filterMinMaxReal cexFieldRange 5 1 cexKernelHole4 4 1 .range 0 0 5 1 (0 + 0)
        (0 + 2) = some ((0 : ℚ) - 5) := rfl
    rw [h]
    norm_num
  · norm_num

/-- C6: corrected — Normalization does write `(x - min) / (max - min)` (with
`min` the erosion and `max` the dilation value) and exactly `1/2` where
`min = max`, but the output lies in `[0, 1]` only when the kernel contains
its centre cell, so that the pixel's own value is sampled by both windows
(the spec's unconditional bound fails for kernels such as `[1, 0, 1]`). -/
theorem normalization_formula_and_bounds (d : ℕ → ℕ → ℚ) (xres yres : ℕ) (K : ℕ → ℕ → Bool)
    (kx ky col row width height i j : ℕ)
    (hreg : regionOK xres yres col row width height)
    (hky : 1 ≤ ky) (hkx : 1 ≤ kx)
    (hi : i < height) (hj : j < width)
    (hmin : row + ky / 2 < yres ∨ (ky - 1) / 2 = 0)
    (hmax : row + (ky - 1) / 2 < yres ∨ ky / 2 = 0)
    (hcentre : K ((ky - 1) / 2) ((kx - 1) / 2) = true) :
    ∃ mn mx, bruteErosion d xres yres K kx ky col row i j = some mn ∧
      bruteDilation d xres yres K kx ky col row i j = some mx ∧
      filterMinMaxReal d xres yres K kx ky .normalization col row width height
          (row + i) (col + j) =
        some (if mn = mx then 1 / 2 else (d (row + i) (col + j) - mn) / (mx - mn)) ∧
      (mn = mx →
        (if mn = mx then (1 : ℚ) / 2 else (d (row + i) (col + j) - mn) / (mx - mn)) = 1 / 2) ∧
      0 ≤ (if mn = mx then (1 : ℚ) / 2 else (d (row + i) (col + j) - mn) / (mx - mn)) ∧
      (if mn = mx then (1 : ℚ) / 2 else (d (row + i) (col + j) - mn) / (mx - mn)) ≤ 1 := by
  obtain ⟨hw, hh, hcw, hrh⟩ := id hreg
  have hxr : 1 ≤ xres := by omega
  have hrow : row < yres := by omega
  have hiy : row + i + 1 ≤ yres := by omega
  have hcell : ∃ t c, t < ky ∧ c < kx ∧ K t c = true :=
    ⟨(ky - 1) / 2, (kx - 1) / 2, by omega, by omega, hcentre⟩
  obtain ⟨mn, mx, h1, h2, h3, h4⟩ := brute_pair_char d xres yres K kx ky col row i j hky hkx
    (by omega) (by omega) hcentre
  have he := exec_eq_bruteErosion d xres yres K kx ky col row width i j hxr hcw hrow hiy hky
    hkx hmin hcell hj
  have hd := exec_eq_bruteDilation d xres yres K kx ky col row width i j hxr hcw hrow hiy hky
    hkx hmax hcell hj
  have hout : filterMinMaxReal d xres yres K kx ky .normalization col row width height
      (row + i) (col + j) =
      some (if mn = mx then 1 / 2 else (d (row + i) (col + j) - mn) / (mx - mn)) := by
    have hr1 : filterMinMaxReal d xres yres K kx ky .normalization col row width height
        (row + i) (col + j) =
        writeRegion d col row width height
          (fun i j =>
            optMap2 (fun mn mx =>
                if mn = mx then 1 / 2 else (d (row + i) (col + j) - mn) / (mx - mn))
              (minMaxExec d xres yres (encodeRLE K kx ky)
                (planSet (rleLens (encodeRLE K kx ky))) false col row width kx ky i j)
              (minMaxExec d xres yres (rleFlip (encodeRLE K kx ky) kx ky)
                (planSet (rleLens (encodeRLE K kx ky))) true col row width kx ky i j))
          (row + i) (col + j) := by
      unfold filterMinMaxReal
      rw [if_pos hreg]
    rw [hr1, writeRegion_in d col row width height _ i j hi hj]
    show optMap2 (fun mn mx =>
          if mn = mx then 1 / 2 else (d (row + i) (col + j) - mn) / (mx - mn))
        (minMaxExec d xres yres (encodeRLE K kx ky)
          (planSet (rleLens (encodeRLE K kx ky))) false col row width kx ky i j)
        (minMaxExec d xres yres (rleFlip (encodeRLE K kx ky) kx ky)
          (planSet (rleLens (encodeRLE K kx ky))) true col row width kx ky i j) =
        some (if mn = mx then 1 / 2 else (d (row + i) (col + j) - mn) / (mx - mn))
    rw [he, hd, h1, h2]
    rfl
  have hbounds : (0 : ℚ) ≤
      (if mn = mx then (1 : ℚ) / 2 else (d (row + i) (col + j) - mn) / (mx - mn)) ∧
      (if mn = mx then (1 : ℚ) / 2 else (d (row + i) (col + j) - mn) / (mx - mn)) ≤ 1 := by
    by_cases hmm : mn = mx
    · rw [if_pos hmm]
      norm_num
    · rw [if_neg hmm]
      have hlt : mn < mx := lt_of_le_of_ne (le_trans h3 h4) hmm
      constructor
      · exact div_nonneg (by linarith) (by linarith)
      · rw [div_le_one (by linarith)]
        linarith
  exact ⟨mn, mx, h1, h2, hout, fun hmm => if_pos hmm, hbounds.1, hbounds.2⟩

/-- Witness for C6 on the 5-pixel row `[3, 1, 4, 1, 5]` with the 1x3 all-ones
kernel (centre cell present) at the first region pixel. -/
theorem normalization_formula_and_bounds_witness :
    regionOK 5 1 0 0 5 1 ∧ onesKernel ((1 - 1) / 2) ((3 - 1) / 2) = true ∧
    (∃ mn mx, bruteErosion specField 5 1 onesKernel 3 1 0 0 0 0 = some mn ∧
      bruteDilation specField 5 1 onesKernel 3 1 0 0 0 0 = some mx ∧
      filterMinMaxReal specField 5 1 onesKernel 3 1 .normalization 0 0 5 1 (0 + 0) (0 + 0) =
        some (if mn = mx then 1 / 2 else (specField (0 + 0) (0 + 0) - mn) / (mx - mn)) ∧
      (mn = mx →
        (if mn = mx then (1 : ℚ) / 2
          else (specField (0 + 0) (0 + 0) - mn) / (mx - mn)) = 1 / 2) ∧
      0 ≤ (if mn = mx then (1 : ℚ) / 2 else (specField (0 + 0) (0 + 0) - mn) / (mx - mn)) ∧
      (if mn = mx then (1 : ℚ) / 2 else (specField (0 + 0) (0 + 0) - mn) / (mx - mn)) ≤ 1) :=
  ⟨by decide, rfl, normalization_formula_and_bounds specField 5 1 onesKernel 3 1 0 0 5 1 0 0
    (by decide) (by decide) (by decide) (by decide) (by decide) (by decide) (by decide) rfl⟩

/-- Counterexample to C6 as stated: on the row `[0, 5, 1]` with the 1x3
kernel `[1, 0, 1]` (no centre cell), the Normalization filter writes `5` at
region pixel `(0, 1)` — far outside `[0, 1]`, because the pixel's own value
is not sampled by either window. -/
theorem normalization_out_of_range_counterexample :
    filterMinMaxReal cexFieldNorm 3 1 cexKernelHole3 3 1 .normalization 0 0 3 1 (0 + 0)
        (0 + 1) = some 5 ∧ ¬ ((5 : ℚ) ≤ 1) := by
  constructor
  · have h : filterMinMaxReal cexFieldNorm 3 1 cexKernelHole3 3 1 .normalization 0 0 3 1
        (0 + 0) (0 + 1) = some (((5 : ℚ) - 0) / (1 - 0)) := rfl
    rw [h]
    norm_num
  · norm_num
